import Mathlib

/-!
# Verification of the tic-tac-toe engine (`src/App.tsx`)

A shallow embedding of the game-logic portion of the repository: the board
model (`initialBoard`, `getCurrentPlayer`, `availableMoves`, `applyMove`,
`winningLines`, `calculateWinner`, `terminal`, `utility`) and the alpha-beta
minimax search (`maxValueAB`, `minValueAB`, `minimaxAB`).

Conventions of the embedding:
* a JS `"X" | "O"` value is `Player`; a square (`"X" | "O" | null`) is
  `Option Player`; a board (an array of 9 squares) is a `List (Option Player)`;
* JS numbers appearing in the search are only ever `-Infinity`, `+Infinity`
  or the integer utilities, so they are embedded as `EInt`
  (integers extended with both infinities);
* a thrown exception is modelled by `Option`/`none` (`applyMove`);
* the mutual recursion `maxValueAB`/`minValueAB` is embedded as one
  structurally recursive function `searchABF` on a fuel argument, with the
  fuel instantiated to the number of empty squares; since every recursive
  call fills exactly one empty square, this reproduces the source recursion
  exactly (the fuel never runs out on a non-terminal board).
-/

namespace TicTacToe

/-- JS `"X" | "O"`. -/
inductive Player : Type where
  | X : Player
  | O : Player
deriving DecidableEq, Repr

/-- The opposite mark. -/
def Player.other : Player → Player
  | Player.X => Player.O
  | Player.O => Player.X

/-- JS `Square = "X" | "O" | null`. -/
abbrev Square := Option Player

/-- JS `Board = Square[]`. -/
abbrev Board := List Square

/-- `initialBoard`: `Array(9).fill(null)`. -/
def initialBoard : Board := List.replicate 9 none

/-- The number of `"X"` marks (`board.filter(...).length` in the source). -/
def xCount (board : Board) : Nat :=
  (board.filter (fun sq => sq = some Player.X)).length

/-- The number of `"O"` marks. -/
def oCount (board : Board) : Nat :=
  (board.filter (fun sq => sq = some Player.O)).length

/-- `getCurrentPlayer`: compares the counts of `"X"` and `"O"` marks;
`X` moves when the counts are equal. -/
def getCurrentPlayer (board : Board) : Player :=
  if xCount board = oCount board then Player.X else Player.O

/-- The indices of the empty squares in ascending order, starting the count
at `i`.  The source builds this list with `reduce`, pushing each index whose
square is `null`. -/
def availMovesFrom : Nat → Board → List Nat
  | _, [] => []
  | i, none :: rest => i :: availMovesFrom (i + 1) rest
  | i, some _ :: rest => availMovesFrom (i + 1) rest

/-- `availableMoves`: indices of all empty squares, in ascending order. -/
def availableMoves (board : Board) : List Nat :=
  availMovesFrom 0 board

/-- `applyMove`: throws (`none`) when the target square is not `null`
(this includes an out-of-range index, where the JS lookup yields
`undefined ≠ null`); otherwise returns a copy with the square set. -/
def applyMove (board : Board) (move : Nat) (player : Player) : Option Board :=
  match board.get? move with
  | some none => some (board.set move (some player))
  | _ => none

/-- The successful result of `applyMove`: used by the search, which only
applies moves drawn from `availableMoves` (see `applyMove_eq_some`). -/
def applyMoveU (board : Board) (move : Nat) (player : Player) : Board :=
  board.set move (some player)

/-- `winningLines`: the 3 rows, the 3 columns and the 2 diagonals. -/
def winningLines : List (Nat × Nat × Nat) :=
  [(0, 1, 2), (3, 4, 5), (6, 7, 8),
   (0, 3, 6), (1, 4, 7), (2, 5, 8),
   (0, 4, 8), (2, 4, 6)]

/-- The `for`-loop of `calculateWinner`: the first line whose three squares
hold one and the same mark decides; out-of-range lookups (JS `undefined`)
never match. -/
def winnerLoop (board : Board) : List (Nat × Nat × Nat) → Option Player
  | [] => none
  | (a, b, c) :: rest =>
    match board.get? a with
    | some (some p) =>
      if board.get? b = some (some p) ∧ board.get? c = some (some p) then some p
      else winnerLoop board rest
    | _ => winnerLoop board rest

/-- `calculateWinner`: scans `winningLines` in order and returns the mark of
the first fully-occupied single-mark line, else `null`. -/
def calculateWinner (board : Board) : Option Player :=
  winnerLoop board winningLines

/-- `terminal`: someone has won, or the board is full. -/
def terminal (board : Board) : Bool :=
  (calculateWinner board).isSome || board.all (fun sq => sq.isSome)

/-- `utility`: `1` if `X` has won, `-1` if `O` has won, `0` otherwise. -/
def utility (board : Board) : Int :=
  match calculateWinner board with
  | some Player.X => 1
  | some Player.O => -1
  | none => 0

/-! ## Extended integers

The JS numbers occurring in the search: integers together with
`-Infinity` and `+Infinity`. -/

/-- An integer, `-Infinity`, or `+Infinity`. -/
inductive EInt : Type where
  | negInf : EInt
  | fin : Int → EInt
  | posInf : EInt
deriving DecidableEq, Repr

namespace EInt

/-- Boolean `≤` on `EInt`. -/
def ble : EInt → EInt → Bool
  | negInf, _ => true
  | _, posInf => true
  | fin a, fin b => decide (a ≤ b)
  | _, _ => false

/-- Boolean `<` on `EInt`. -/
def blt (a b : EInt) : Bool := !(ble b a)

/-- JS `Math.max` restricted to the values the search uses. -/
def maxE (a b : EInt) : EInt := if ble a b then b else a

/-- JS `Math.min` restricted to the values the search uses. -/
def minE (a b : EInt) : EInt := if ble a b then a else b

instance : LE EInt := ⟨fun a b => ble a b = true⟩
instance : LT EInt := ⟨fun a b => blt a b = true⟩

instance : LinearOrder EInt where
  le_refl a := show ble a a = true by cases a <;> simp [ble]
  le_trans a b c h₁ h₂ := show ble a c = true by
    have h₁' : ble a b = true := h₁
    have h₂' : ble b c = true := h₂
    clear h₁ h₂
    cases a <;> cases b <;> cases c <;> simp_all [ble] <;> omega
  le_antisymm a b h₁ h₂ := by
    have h₁' : ble a b = true := h₁
    have h₂' : ble b a = true := h₂
    clear h₁ h₂
    cases a <;> cases b <;> simp_all [ble] <;> omega
  le_total a b := show ble a b = true ∨ ble b a = true by
    cases a <;> cases b <;> simp [ble] <;> omega
  lt_iff_le_not_le a b := by
    have htot : ∀ x y : EInt, ble x y = true ∨ ble y x = true := fun x y => by
      cases x <;> cases y <;> simp [ble] <;> omega
    show blt a b = true ↔ ble a b = true ∧ ¬ ble b a = true
    rw [blt]
    constructor
    · intro h
      have hn : ¬ ble b a = true := by
        cases hba : ble b a
        · simp
        · rw [hba] at h; cases h
      rcases htot a b with h' | h'
      · exact ⟨h', hn⟩
      · exact absurd h' hn
    · intro ⟨_, h₂⟩
      cases hba : ble b a
      · rfl
      · exact absurd hba h₂
  decidableLE := fun a b => inferInstanceAs (Decidable (ble a b = true))
  decidableEq := inferInstance

instance (a b : EInt) : Decidable (a ≤ b) :=
  inferInstanceAs (Decidable (ble a b = true))

instance (a b : EInt) : Decidable (a < b) :=
  inferInstanceAs (Decidable (blt a b = true))

end EInt

/-! ## The search

`MoveResult` is the record returned by both evaluators.  The two `for`-loops
are embedded as the list recursions `goMax`/`goMin`; the evaluation of a
child (`minValueAB(applyMove(board, move, "X"), alpha, beta).value` resp. the
max version) is passed in as the function argument `f`, which lets the loops
be stated and analysed independently of the fuel. -/

/-- JS `MoveResult = { value: number; move: number | null }`. -/
structure MoveResult : Type where
  value : EInt
  move : Option Nat
deriving DecidableEq, Repr

/-- The loop of `maxValueAB`: running best value `v` (initially `-Infinity`),
running best move `best`, window `alpha`/`beta`.  On each move: evaluate the
child, keep it only on strict improvement, raise `alpha`, break when
`alpha >= beta`. -/
def goMax (f : Nat → EInt → EInt → EInt) :
    List Nat → EInt → Option Nat → EInt → EInt → MoveResult
  | [], v, best, _, _ => ⟨v, best⟩
  | move :: ms, v, best, alpha, beta =>
    let minVal := f move alpha beta
    let v' := if EInt.blt v minVal then minVal else v
    let best' := if EInt.blt v minVal then some move else best
    let alpha' := EInt.maxE alpha v'
    if EInt.ble beta alpha' then ⟨v', best'⟩
    else goMax f ms v' best' alpha' beta

/-- The loop of `minValueAB`: dual to `goMax`; lowers `beta`, breaks when
`alpha >= beta`. -/
def goMin (f : Nat → EInt → EInt → EInt) :
    List Nat → EInt → Option Nat → EInt → EInt → MoveResult
  | [], v, best, _, _ => ⟨v, best⟩
  | move :: ms, v, best, alpha, beta =>
    let maxVal := f move alpha beta
    let v' := if EInt.blt maxVal v then maxVal else v
    let best' := if EInt.blt maxVal v then some move else best
    let beta' := EInt.minE beta v'
    if EInt.ble beta' alpha then ⟨v', best'⟩
    else goMin f ms v' best' alpha beta'

/-- The loop of the maximizing evaluator with the pruning removed: the
brute-force reference the spec compares against (same ascending move order,
same strict-improvement tie-break). -/
def bfMax (f : Nat → EInt) : List Nat → EInt → Option Nat → MoveResult
  | [], v, best => ⟨v, best⟩
  | move :: ms, v, best =>
    let minVal := f move
    let v' := if EInt.blt v minVal then minVal else v
    let best' := if EInt.blt v minVal then some move else best
    bfMax f ms v' best'

/-- The loop of the minimizing evaluator with the pruning removed. -/
def bfMin (f : Nat → EInt) : List Nat → EInt → Option Nat → MoveResult
  | [], v, best => ⟨v, best⟩
  | move :: ms, v, best =>
    let maxVal := f move
    let v' := if EInt.blt maxVal v then maxVal else v
    let best' := if EInt.blt maxVal v then some move else best
    bfMin f ms v' best'

/-- The number of empty squares: the recursion depth of the search. -/
def countEmpty (board : Board) : Nat := (availableMoves board).length

/-- The mutual recursion `maxValueAB`/`minValueAB`, fuelled: `Player.X`
selects the maximizing evaluator, `Player.O` the minimizing one.  At a
terminal board both return `(utility board, null)`.  The fuel only ever
runs out on a full (hence terminal) board, where the returned value is the
same `(utility board, null)`. -/
def searchABF : Nat → Player → Board → EInt → EInt → MoveResult
  | 0, _, board, _, _ => ⟨EInt.fin (utility board), none⟩
  | fuel + 1, Player.X, board, alpha, beta =>
    if terminal board then ⟨EInt.fin (utility board), none⟩
    else
      goMax (fun move a b =>
          (searchABF fuel Player.O (applyMoveU board move Player.X) a b).value)
        (availableMoves board) EInt.negInf none alpha beta
  | fuel + 1, Player.O, board, alpha, beta =>
    if terminal board then ⟨EInt.fin (utility board), none⟩
    else
      goMin (fun move a b =>
          (searchABF fuel Player.X (applyMoveU board move Player.O) a b).value)
        (availableMoves board) EInt.posInf none alpha beta

/-- Brute-force minimax without pruning, fuelled: the spec's reference
algorithm ("unpruned brute-force minimax with the same ascending move order
and strict-improvement tie-break"). -/
def searchNoABF : Nat → Player → Board → MoveResult
  | 0, _, board => ⟨EInt.fin (utility board), none⟩
  | fuel + 1, Player.X, board =>
    if terminal board then ⟨EInt.fin (utility board), none⟩
    else
      bfMax (fun move =>
          (searchNoABF fuel Player.O (applyMoveU board move Player.X)).value)
        (availableMoves board) EInt.negInf none
  | fuel + 1, Player.O, board =>
    if terminal board then ⟨EInt.fin (utility board), none⟩
    else
      bfMin (fun move =>
          (searchNoABF fuel Player.X (applyMoveU board move Player.O)).value)
        (availableMoves board) EInt.posInf none

/-- `maxValueAB`: the maximizing evaluator. -/
def maxValueAB (board : Board) (alpha beta : EInt) : MoveResult :=
  searchABF (countEmpty board) Player.X board alpha beta

/-- `minValueAB`: the minimizing evaluator. -/
def minValueAB (board : Board) (alpha beta : EInt) : MoveResult :=
  searchABF (countEmpty board) Player.O board alpha beta

/-- `minimaxAB`: the top-level entry point; dispatches on the player and
returns only the chosen move. -/
def minimaxAB (board : Board) (currentPlayer : Player) : Option Nat :=
  match currentPlayer with
  | Player.X => (maxValueAB board EInt.negInf EInt.posInf).move
  | Player.O => (minValueAB board EInt.negInf EInt.posInf).move

/-- Brute-force counterpart of `maxValueAB`. -/
def bruteForceMax (board : Board) : MoveResult :=
  searchNoABF (countEmpty board) Player.X board

/-- Brute-force counterpart of `minValueAB`. -/
def bruteForceMin (board : Board) : MoveResult :=
  searchNoABF (countEmpty board) Player.O board

/-! ## Derived notions used by the specification claims -/

/-- The (unpruned) minimax value of board `b` with `p` to move. -/
def nodeValue (p : Player) (b : Board) : EInt :=
  (searchNoABF (countEmpty b) p b).value

/-- The minimax value of the position reached from `b` when `p` plays `m`
(the opponent to move there). -/
def moveValue (p : Player) (b : Board) (m : Nat) : EInt :=
  (searchNoABF (countEmpty (applyMoveU b m p)) (Player.other p) (applyMoveU b m p)).value

/-- Modelled from the spec: "returns the mark if any line is fully occupied
by one mark" — the mark of a line all three squares of which hold one and
the same mark, `none` otherwise. -/
def fullLineMark (board : Board) : Nat × Nat × Nat → Option Player
  | (a, b, c) =>
    match board.get? a, board.get? b, board.get? c with
    | some (some p), some (some q), some (some r) =>
      if p = q ∧ p = r then some p else none
    | _, _, _ => none

/-- Play out a sequence of moves from a board, each move made by the player
to move, only onto an empty square of a non-terminal board: the legal games
of the data model. -/
def playSeq : Board → List Nat → Option Board
  | b, [] => some b
  | b, m :: ms =>
    if terminal b then none
    else if b.get? m = some none then
      playSeq (applyMoveU b m (getCurrentPlayer b)) ms
    else none

/-- A board is reachable (legal) if some alternating play from the empty
board produces it. -/
def Reachable (b : Board) : Prop :=
  ∃ ms : List Nat, playSeq initialBoard ms = some b

/-- The count invariant of alternating play: `X` has moved as often as `O`,
or exactly once more. -/
def Balanced (b : Board) : Prop :=
  xCount b = oCount b ∨ xCount b = oCount b + 1

/-- A game in which side `s` is played by the engine: from `b`, the engine
moves via `minimaxAB` whenever it is `s`'s turn, and the opponent makes an
arbitrary available move whenever it is not.  `EnginePlays s b c` holds when
board `c` occurs in such a game starting at `b`. -/
inductive EnginePlays (s : Player) : Board → Board → Prop where
  | refl (b : Board) : EnginePlays s b b
  | engineMove {b c : Board} {m : Nat} :
      terminal b = false → getCurrentPlayer b = s →
      minimaxAB b s = some m →
      EnginePlays s (applyMoveU b m s) c → EnginePlays s b c
  | opponentMove {b c : Board} {m : Nat} :
      terminal b = false → getCurrentPlayer b ≠ s →
      m ∈ availableMoves b →
      EnginePlays s (applyMoveU b m (getCurrentPlayer b)) c → EnginePlays s b c

/-- The side `s` is not already lost at `b`: the minimax value of `b` is
favorable (or neutral) for `s`. -/
def engineFavorable (s : Player) (b : Board) : Prop :=
  match s with
  | Player.X => EInt.fin 0 ≤ nodeValue (getCurrentPlayer b) b
  | Player.O => nodeValue (getCurrentPlayer b) b ≤ EInt.fin 0

/-- A full drawn board (no winner, no empty square). -/
def drawBoard : Board :=
  [some Player.X, some Player.O, some Player.X,
   some Player.X, some Player.O, some Player.O,
   some Player.O, some Player.X, some Player.X]

/-- A non-terminal board with one empty square (index 8). -/
def lastMoveBoard : Board :=
  [some Player.X, some Player.O, some Player.X,
   some Player.X, some Player.O, some Player.O,
   some Player.O, some Player.X, none]

/-- The double-threat board: `O` holds 0, 2 and 6 (threatening 1, 3 and 4),
`X` holds 5, 7 and 8, and `X` is to move.  Legal, but already lost for `X`.
Reached by the alternating game X5, O0, X7, O2, X8, O6. -/
def forkBoard : Board :=
  [some Player.O, none, some Player.O,
   none, none, some Player.X,
   some Player.O, some Player.X, some Player.X]

/-- The losing continuation from `forkBoard`: the engine (X) plays its
chosen move 1; `O` replies 3, completing the 0-3-6 column. -/
def forkBoardLost : Board :=
  applyMoveU (applyMoveU forkBoard 1 Player.X) 3 Player.O

/-- A winning-in-one board for `X`: `X` holds 0 and 1, `O` holds 3 and 4;
`X` to move must play 2.  Reached by the alternating game X0, O3, X1, O4. -/
def winInOneBoard : Board :=
  [some Player.X, some Player.X, none,
   some Player.O, some Player.O, none,
   none, none, none]


namespace EInt

theorem le_def' (a b : EInt) : (a ≤ b) = (ble a b = true) := rfl

theorem lt_def' (a b : EInt) : (a < b) = (blt a b = true) := rfl

theorem ble_refl (a : EInt) : ble a a = true := by
  cases a <;> simp [ble]

theorem ble_trans {a b c : EInt} (h₁ : ble a b = true) (h₂ : ble b c = true) :
    ble a c = true := by
  cases a <;> cases b <;> cases c <;> simp_all [ble] <;> omega

theorem ble_antisymm {a b : EInt} (h₁ : ble a b = true) (h₂ : ble b a = true) :
    a = b := by
  cases a <;> cases b <;> simp_all [ble] <;> omega

theorem ble_total (a b : EInt) : ble a b = true ∨ ble b a = true := by
  cases a <;> cases b <;> simp [ble] <;> omega

theorem blt_iff_not_ble {a b : EInt} : blt a b = true ↔ ¬ ble b a = true := by
  simp [blt]

theorem not_lt_iff_le {a b : EInt} : ¬ a < b ↔ b ≤ a := not_lt

theorem maxE_eq_max (a b : EInt) : maxE a b = max a b := by
  rw [max_def, maxE]
  rfl

theorem minE_eq_min (a b : EInt) : minE a b = min a b := by
  rw [min_def, minE]
  rfl

theorem negInf_le (a : EInt) : negInf ≤ a := by
  cases a <;> simp [le_def', ble]

theorem le_posInf (a : EInt) : a ≤ posInf := by
  cases a <;> simp [le_def', ble]

theorem le_negInf_iff {a : EInt} : a ≤ negInf ↔ a = negInf := by
  cases a <;> simp [le_def', ble]

theorem posInf_le_iff {a : EInt} : posInf ≤ a ↔ a = posInf := by
  cases a <;> simp [le_def', ble]

theorem fin_le_fin_iff {a b : Int} : (fin a : EInt) ≤ fin b ↔ a ≤ b := by
  simp [le_def', ble]

theorem negInf_lt_fin (n : Int) : (negInf : EInt) < fin n := by
  simp [lt_def', blt, ble]

theorem fin_lt_posInf (n : Int) : (fin n : EInt) < posInf := by
  simp [lt_def', blt, ble]

theorem lt_posInf_of_ne {a : EInt} (h : a ≠ posInf) : a < posInf := by
  cases a <;> simp_all [lt_def', blt, ble]

theorem negInf_lt_of_ne {a : EInt} (h : a ≠ negInf) : negInf < a := by
  cases a <;> simp_all [lt_def', blt, ble]

end EInt

/-! ## Basic board lemmas -/

theorem mem_availMovesFrom :
    ∀ (b : Board) (i m : Nat),
      m ∈ availMovesFrom i b ↔ ∃ j, m = i + j ∧ b.get? j = some none := by
  intro b
  induction b with
  | nil =>
    intro i m
    simp [availMovesFrom]
  | cons sq rest ih =>
    intro i m
    cases sq with
    | none =>
      simp only [availMovesFrom, List.mem_cons, ih]
      constructor
      · rintro (rfl | ⟨j, rfl, hj⟩)
        · exact ⟨0, by omega, rfl⟩
        · exact ⟨j + 1, by omega, hj⟩
      · rintro ⟨j, rfl, hj⟩
        cases j with
        | zero => left; omega
        | succ j' => right; exact ⟨j', by omega, hj⟩
    | some p =>
      simp only [availMovesFrom, ih]
      constructor
      · rintro ⟨j, rfl, hj⟩
        exact ⟨j + 1, by omega, hj⟩
      · rintro ⟨j, rfl, hj⟩
        cases j with
        | zero => simp at hj
        | succ j' => exact ⟨j', by omega, hj⟩

theorem mem_availableMoves {b : Board} {m : Nat} :
    m ∈ availableMoves b ↔ b.get? m = some none := by
  rw [availableMoves, mem_availMovesFrom]
  constructor
  · rintro ⟨j, rfl, hj⟩
    simpa using hj
  · intro h
    exact ⟨m, by omega, h⟩

theorem availMovesFrom_le :
    ∀ (b : Board) (i m : Nat), m ∈ availMovesFrom i b → i ≤ m := by
  intro b i m h
  rw [mem_availMovesFrom] at h
  obtain ⟨j, rfl, -⟩ := h
  omega

theorem availMovesFrom_pairwise :
    ∀ (b : Board) (i : Nat), List.Pairwise (· < ·) (availMovesFrom i b) := by
  intro b
  induction b with
  | nil => intro i; simp [availMovesFrom]
  | cons sq rest ih =>
    intro i
    cases sq with
    | none =>
      refine List.Pairwise.cons ?_ (ih (i + 1))
      intro m hm
      have := availMovesFrom_le rest (i + 1) m hm
      omega
    | some p => exact ih (i + 1)

theorem availableMoves_pairwise (b : Board) :
    List.Pairwise (· < ·) (availableMoves b) :=
  availMovesFrom_pairwise b 0

theorem applyMove_eq_some {b : Board} {m : Nat} (p : Player)
    (h : b.get? m = some none) : applyMove b m p = some (applyMoveU b m p) := by
  rw [applyMove, h]
  rfl

theorem availMovesFrom_set_length :
    ∀ (b : Board) (m i : Nat) (p : Player), b.get? m = some none →
      (availMovesFrom i (b.set m (some p))).length + 1 =
        (availMovesFrom i b).length := by
  intro b
  induction b with
  | nil => intro m i p h; simp at h
  | cons sq rest ih =>
    intro m i p h
    cases m with
    | zero =>
      simp only [List.get?] at h
      cases h
      simp [availMovesFrom, List.set]
    | succ m' =>
      simp only [List.get?] at h
      cases sq with
      | none =>
        simp only [List.set, availMovesFrom, List.length_cons]
        have := ih m' (i + 1) p h
        omega
      | some q =>
        simp only [List.set, availMovesFrom]
        exact ih m' (i + 1) p h

theorem countEmpty_applyMoveU {b : Board} {m : Nat} (p : Player)
    (h : b.get? m = some none) :
    countEmpty (applyMoveU b m p) + 1 = countEmpty b :=
  availMovesFrom_set_length b m 0 p h

theorem avail_ne_nil_of_not_terminal {b : Board} (h : terminal b = false) :
    availableMoves b ≠ [] := by
  have hall : ¬ (b.all (fun sq => sq.isSome) = true) := by
    intro hc
    rw [terminal, hc, Bool.or_true] at h
    simp at h
  rw [List.all_eq_true] at hall
  push_neg at hall
  obtain ⟨sq, hmem, hsq⟩ := hall
  have hnone : sq = none := by
    cases sq
    · rfl
    · simp at hsq
  subst hnone
  obtain ⟨n, hn⟩ := List.mem_iff_get?.mp hmem
  intro hnil
  have : n ∈ availableMoves b := mem_availableMoves.mpr hn
  rw [hnil] at this
  exact List.not_mem_nil n this

theorem countEmpty_pos_of_not_terminal {b : Board} (h : terminal b = false) :
    0 < countEmpty b := by
  have := avail_ne_nil_of_not_terminal h
  rw [countEmpty]
  cases hm : availableMoves b with
  | nil => exact absurd hm this
  | cons x xs => simp

/-! ## Lemmas about the unpruned loops -/

theorem EInt.blt_eq_true_iff {a b : EInt} : EInt.blt a b = true ↔ a < b :=
  Iff.rfl

theorem EInt.blt_eq_false_iff {a b : EInt} : EInt.blt a b = false ↔ b ≤ a := by
  rw [← Bool.not_eq_true, EInt.blt_eq_true_iff, not_lt]

theorem EInt.ble_eq_true_iff {a b : EInt} : EInt.ble a b = true ↔ a ≤ b :=
  Iff.rfl

theorem EInt.ble_eq_false_iff {a b : EInt} : EInt.ble a b = false ↔ b < a := by
  rw [EInt.lt_def', EInt.blt]
  cases EInt.ble a b <;> simp

theorem bfMax_le_value (f : Nat → EInt) :
    ∀ (ms : List Nat) (v : EInt) (best : Option Nat),
      v ≤ (bfMax f ms v best).value := by
  intro ms
  induction ms with
  | nil => intro v best; exact le_refl v
  | cons m0 ms ih =>
    intro v best
    by_cases h : EInt.blt v (f m0) = true
    · simp only [bfMax, h, if_true]
      exact le_of_lt (lt_of_lt_of_le (EInt.blt_eq_true_iff.mp h)
        (ih (f m0) (some m0)))
    · simp only [bfMax, h, if_false]
      exact ih v best

theorem bfMax_mem_le (f : Nat → EInt) :
    ∀ (ms : List Nat) (v : EInt) (best : Option Nat) (m : Nat),
      m ∈ ms → f m ≤ (bfMax f ms v best).value := by
  intro ms
  induction ms with
  | nil => intro v best m hm; exact absurd hm (List.not_mem_nil m)
  | cons m0 ms ih =>
    intro v best m hm
    rcases List.mem_cons.mp hm with rfl | hm'
    · by_cases h : EInt.blt v (f m) = true
      · simp only [bfMax, h, if_true]
        exact bfMax_le_value f ms (f m) (some m)
      · simp only [bfMax, h, if_false]
        exact le_trans (EInt.blt_eq_false_iff.mp (Bool.eq_false_iff.mpr h))
          (bfMax_le_value f ms v best)
    · by_cases h : EInt.blt v (f m0) = true
      · simp only [bfMax, h, if_true]
        exact ih (f m0) (some m0) m hm'
      · simp only [bfMax, h, if_false]
        exact ih v best m hm'

theorem bfMax_value_cases (f : Nat → EInt) :
    ∀ (ms : List Nat) (v : EInt) (best : Option Nat),
      (bfMax f ms v best).value = v ∨
        ∃ m ∈ ms, (bfMax f ms v best).value = f m := by
  intro ms
  induction ms with
  | nil => intro v best; left; rfl
  | cons m0 ms ih =>
    intro v best
    by_cases h : EInt.blt v (f m0) = true
    · simp only [bfMax, h, if_true]
      rcases ih (f m0) (some m0) with h' | ⟨m, hm, h'⟩
      · right; exact ⟨m0, List.mem_cons_self m0 ms, h'⟩
      · right; exact ⟨m, List.mem_cons_of_mem m0 hm, h'⟩
    · simp only [bfMax, h, if_false]
      rcases ih v best with h' | ⟨m, hm, h'⟩
      · left; exact h'
      · right; exact ⟨m, List.mem_cons_of_mem m0 hm, h'⟩

/-- What the unpruned maximizing loop computes: either no move ever strictly
improved on `v` (all children are `≤ v`, state returned unchanged), or the
result is the first move attaining the maximum child value. -/
theorem bfMax_spec (f : Nat → EInt) :
    ∀ (ms : List Nat) (v : EInt) (best : Option Nat),
      List.Pairwise (· < ·) ms →
      (bfMax f ms v best = ⟨v, best⟩ ∧ ∀ m ∈ ms, f m ≤ v) ∨
      (∃ m ∈ ms, bfMax f ms v best = ⟨f m, some m⟩ ∧ v < f m ∧
        (∀ m' ∈ ms, f m' ≤ f m) ∧ (∀ m' ∈ ms, m' < m → f m' < f m)) := by
  intro ms
  induction ms with
  | nil => intro v best _; left; exact ⟨rfl, by intro m hm; simp at hm⟩
  | cons m0 ms ih =>
    intro v best hp
    have hp' : List.Pairwise (· < ·) ms := hp.tail
    have hm0lt : ∀ m' ∈ ms, m0 < m' := fun m' hm' => List.rel_of_pairwise_cons hp hm'
    by_cases h : EInt.blt v (f m0) = true
    · have hv : v < f m0 := EInt.blt_eq_true_iff.mp h
      simp only [bfMax, h, if_true]
      rcases ih (f m0) (some m0) hp' with ⟨heq, hle⟩ | ⟨m, hm, heq, hlt, hle, hfirst⟩
      · right
        refine ⟨m0, List.mem_cons_self m0 ms, heq, hv, ?_, ?_⟩
        · intro m' hm'
          rcases List.mem_cons.mp hm' with rfl | hm''
          · exact le_refl _
          · exact hle m' hm''
        · intro m' hm' hlt'
          rcases List.mem_cons.mp hm' with rfl | hm''
          · omega
          · exact absurd hlt' (by have := hm0lt m' hm''; omega)
      · right
        refine ⟨m, List.mem_cons_of_mem m0 hm, heq, lt_trans hv hlt, ?_, ?_⟩
        · intro m' hm'
          rcases List.mem_cons.mp hm' with rfl | hm''
          · exact le_of_lt hlt
          · exact hle m' hm''
        · intro m' hm' hlt'
          rcases List.mem_cons.mp hm' with rfl | hm''
          · exact hlt
          · exact hfirst m' hm'' hlt'
    · have hv : f m0 ≤ v := EInt.blt_eq_false_iff.mp (Bool.eq_false_iff.mpr h)
      simp only [bfMax, h, if_false]
      rcases ih v best hp' with ⟨heq, hle⟩ | ⟨m, hm, heq, hlt, hle, hfirst⟩
      · left
        refine ⟨heq, ?_⟩
        intro m' hm'
        rcases List.mem_cons.mp hm' with rfl | hm''
        · exact hv
        · exact hle m' hm''
      · right
        refine ⟨m, List.mem_cons_of_mem m0 hm, heq, hlt, ?_, ?_⟩
        · intro m' hm'
          rcases List.mem_cons.mp hm' with rfl | hm''
          · exact le_trans hv (le_of_lt hlt)
          · exact hle m' hm''
        · intro m' hm' hlt'
          rcases List.mem_cons.mp hm' with rfl | hm''
          · exact lt_of_le_of_lt hv hlt
          · exact hfirst m' hm'' hlt'

theorem bfMin_value_le (f : Nat → EInt) :
    ∀ (ms : List Nat) (v : EInt) (best : Option Nat),
      (bfMin f ms v best).value ≤ v := by
  intro ms
  induction ms with
  | nil => intro v best; exact le_refl v
  | cons m0 ms ih =>
    intro v best
    by_cases h : EInt.blt (f m0) v = true
    · simp only [bfMin, h, if_true]
      exact le_of_lt (lt_of_le_of_lt (ih (f m0) (some m0))
        (EInt.blt_eq_true_iff.mp h))
    · simp only [bfMin, h, if_false]
      exact ih v best

theorem bfMin_le_mem (f : Nat → EInt) :
    ∀ (ms : List Nat) (v : EInt) (best : Option Nat) (m : Nat),
      m ∈ ms → (bfMin f ms v best).value ≤ f m := by
  intro ms
  induction ms with
  | nil => intro v best m hm; exact absurd hm (List.not_mem_nil m)
  | cons m0 ms ih =>
    intro v best m hm
    rcases List.mem_cons.mp hm with rfl | hm'
    · by_cases h : EInt.blt (f m) v = true
      · simp only [bfMin, h, if_true]
        exact bfMin_value_le f ms (f m) (some m)
      · simp only [bfMin, h, if_false]
        exact le_trans (bfMin_value_le f ms v best)
          (EInt.blt_eq_false_iff.mp (Bool.eq_false_iff.mpr h))
    · by_cases h : EInt.blt (f m0) v = true
      · simp only [bfMin, h, if_true]
        exact ih (f m0) (some m0) m hm'
      · simp only [bfMin, h, if_false]
        exact ih v best m hm'

theorem bfMin_value_cases (f : Nat → EInt) :
    ∀ (ms : List Nat) (v : EInt) (best : Option Nat),
      (bfMin f ms v best).value = v ∨
        ∃ m ∈ ms, (bfMin f ms v best).value = f m := by
  intro ms
  induction ms with
  | nil => intro v best; left; rfl
  | cons m0 ms ih =>
    intro v best
    by_cases h : EInt.blt (f m0) v = true
    · simp only [bfMin, h, if_true]
      rcases ih (f m0) (some m0) with h' | ⟨m, hm, h'⟩
      · right; exact ⟨m0, List.mem_cons_self m0 ms, h'⟩
      · right; exact ⟨m, List.mem_cons_of_mem m0 hm, h'⟩
    · simp only [bfMin, h, if_false]
      rcases ih v best with h' | ⟨m, hm, h'⟩
      · left; exact h'
      · right; exact ⟨m, List.mem_cons_of_mem m0 hm, h'⟩

/-- Dual of `bfMax_spec` for the minimizing loop. -/
theorem bfMin_spec (f : Nat → EInt) :
    ∀ (ms : List Nat) (v : EInt) (best : Option Nat),
      List.Pairwise (· < ·) ms →
      (bfMin f ms v best = ⟨v, best⟩ ∧ ∀ m ∈ ms, v ≤ f m) ∨
      (∃ m ∈ ms, bfMin f ms v best = ⟨f m, some m⟩ ∧ f m < v ∧
        (∀ m' ∈ ms, f m ≤ f m') ∧ (∀ m' ∈ ms, m' < m → f m < f m')) := by
  intro ms
  induction ms with
  | nil => intro v best _; left; exact ⟨rfl, by intro m hm; simp at hm⟩
  | cons m0 ms ih =>
    intro v best hp
    have hp' : List.Pairwise (· < ·) ms := hp.tail
    have hm0lt : ∀ m' ∈ ms, m0 < m' := fun m' hm' => List.rel_of_pairwise_cons hp hm'
    by_cases h : EInt.blt (f m0) v = true
    · have hv : f m0 < v := EInt.blt_eq_true_iff.mp h
      simp only [bfMin, h, if_true]
      rcases ih (f m0) (some m0) hp' with ⟨heq, hle⟩ | ⟨m, hm, heq, hlt, hle, hfirst⟩
      · right
        refine ⟨m0, List.mem_cons_self m0 ms, heq, hv, ?_, ?_⟩
        · intro m' hm'
          rcases List.mem_cons.mp hm' with rfl | hm''
          · exact le_refl _
          · exact hle m' hm''
        · intro m' hm' hlt'
          rcases List.mem_cons.mp hm' with rfl | hm''
          · omega
          · exact absurd hlt' (by have := hm0lt m' hm''; omega)
      · right
        refine ⟨m, List.mem_cons_of_mem m0 hm, heq, lt_trans hlt hv, ?_, ?_⟩
        · intro m' hm'
          rcases List.mem_cons.mp hm' with rfl | hm''
          · exact le_of_lt hlt
          · exact hle m' hm''
        · intro m' hm' hlt'
          rcases List.mem_cons.mp hm' with rfl | hm''
          · exact hlt
          · exact hfirst m' hm'' hlt'
    · have hv : v ≤ f m0 := EInt.blt_eq_false_iff.mp (Bool.eq_false_iff.mpr h)
      simp only [bfMin, h, if_false]
      rcases ih v best hp' with ⟨heq, hle⟩ | ⟨m, hm, heq, hlt, hle, hfirst⟩
      · left
        refine ⟨heq, ?_⟩
        intro m' hm'
        rcases List.mem_cons.mp hm' with rfl | hm''
        · exact hv
        · exact hle m' hm''
      · right
        refine ⟨m, List.mem_cons_of_mem m0 hm, heq, hlt, ?_, ?_⟩
        · intro m' hm'
          rcases List.mem_cons.mp hm' with rfl | hm''
          · exact le_trans (le_of_lt hlt) hv
          · exact hle m' hm''
        · intro m' hm' hlt'
          rcases List.mem_cons.mp hm' with rfl | hm''
          · exact lt_of_lt_of_le hlt hv
          · exact hfirst m' hm'' hlt'

/-! ## Lemmas about the pruned loops -/

theorem goMax_le_value (f : Nat → EInt → EInt → EInt) :
    ∀ (ms : List Nat) (v : EInt) (best : Option Nat) (alpha beta : EInt),
      v ≤ (goMax f ms v best alpha beta).value := by
  intro ms
  induction ms with
  | nil => intro v best alpha beta; exact le_refl v
  | cons m0 ms ih =>
    intro v best alpha beta
    by_cases h : EInt.blt v (f m0 alpha beta) = true
    · have hv := EInt.blt_eq_true_iff.mp h
      simp only [goMax, h, if_true]
      split
      · exact le_of_lt hv
      · exact le_of_lt (lt_of_lt_of_le hv (ih _ _ _ _))
    · have hb : EInt.blt v (f m0 alpha beta) = false := Bool.eq_false_iff.mpr h
      simp only [goMax, hb, Bool.false_eq_true, if_false]
      split
      · exact le_refl v
      · exact ih _ _ _ _

theorem goMin_value_le (f : Nat → EInt → EInt → EInt) :
    ∀ (ms : List Nat) (v : EInt) (best : Option Nat) (alpha beta : EInt),
      (goMin f ms v best alpha beta).value ≤ v := by
  intro ms
  induction ms with
  | nil => intro v best alpha beta; exact le_refl v
  | cons m0 ms ih =>
    intro v best alpha beta
    by_cases h : EInt.blt (f m0 alpha beta) v = true
    · have hv := EInt.blt_eq_true_iff.mp h
      simp only [goMin, h, if_true]
      split
      · exact le_of_lt hv
      · exact le_of_lt (lt_of_le_of_lt (ih _ _ _ _) hv)
    · have hb : EInt.blt (f m0 alpha beta) v = false := Bool.eq_false_iff.mpr h
      simp only [goMin, hb, Bool.false_eq_true, if_false]
      split
      · exact le_refl v
      · exact ih _ _ _ _

/-- The maximizing loop never returns `-Infinity` unless it started there
with no moves: starting from a non-`+Infinity` value, if the moves list is
nonempty or the start value is finite, the result is finite, provided every
child evaluation is finite. -/
theorem goMax_value_fin (f : Nat → EInt → EInt → EInt)
    (hfin : ∀ m a b, ∃ n, f m a b = EInt.fin n) :
    ∀ (ms : List Nat) (v : EInt) (best : Option Nat) (alpha beta : EInt),
      v ≠ EInt.posInf → (ms ≠ [] ∨ ∃ k, v = EInt.fin k) →
      ∃ n, (goMax f ms v best alpha beta).value = EInt.fin n := by
  intro ms
  induction ms with
  | nil =>
    intro v best alpha beta _ hor
    rcases hor with hne | ⟨k, rfl⟩
    · exact absurd rfl hne
    · exact ⟨k, rfl⟩
  | cons m0 ms ih =>
    intro v best alpha beta hv _
    obtain ⟨n0, hn0⟩ := hfin m0 alpha beta
    by_cases h : EInt.blt v (f m0 alpha beta) = true
    · simp only [goMax, h, if_true]
      split
      · exact ⟨n0, hn0⟩
      · exact ih (f m0 alpha beta) (some m0) _ _ (by rw [hn0]; intro hc; cases hc)
          (Or.inr ⟨n0, hn0⟩)
    · have hb : EInt.blt v (f m0 alpha beta) = false := Bool.eq_false_iff.mpr h
      have hvfin : ∃ k, v = EInt.fin k := by
        cases v with
        | negInf =>
          rw [hn0] at hb
          have : (EInt.negInf : EInt) < EInt.fin n0 := EInt.negInf_lt_fin n0
          rw [EInt.lt_def'] at this
          rw [hn0] at h
          exact absurd this h
        | fin k => exact ⟨k, rfl⟩
        | posInf => exact absurd rfl hv
      simp only [goMax, hb, Bool.false_eq_true, if_false]
      obtain ⟨k, rfl⟩ := hvfin
      split
      · exact ⟨k, rfl⟩
      · exact ih (EInt.fin k) best _ _ (by intro hc; cases hc) (Or.inr ⟨k, rfl⟩)

theorem EInt.ite_blt_max (v w : EInt) :
    (if EInt.blt v w then w else v) = max v w := by
  by_cases h : EInt.blt v w = true
  · rw [if_pos h, max_eq_right (le_of_lt (EInt.blt_eq_true_iff.mp h))]
  · rw [if_neg h,
      max_eq_left (EInt.blt_eq_false_iff.mp (Bool.eq_false_iff.mpr h))]

theorem EInt.ite_blt_min (v w : EInt) :
    (if EInt.blt w v then w else v) = min v w := by
  by_cases h : EInt.blt w v = true
  · rw [if_pos h, min_eq_right (le_of_lt (EInt.blt_eq_true_iff.mp h))]
  · rw [if_neg h,
      min_eq_left (EInt.blt_eq_false_iff.mp (Bool.eq_false_iff.mpr h))]

theorem bfMax_value_mono (f : Nat → EInt) :
    ∀ (ms : List Nat) (v₁ v₂ : EInt) (b₁ b₂ : Option Nat), v₁ ≤ v₂ →
      (bfMax f ms v₁ b₁).value ≤ (bfMax f ms v₂ b₂).value := by
  intro ms
  induction ms with
  | nil => intro v₁ v₂ b₁ b₂ h; exact h
  | cons m0 ms ih =>
    intro v₁ v₂ b₁ b₂ h
    simp only [bfMax, EInt.ite_blt_max]
    exact ih _ _ _ _ (max_le_max h (le_refl (f m0)))

theorem bfMin_value_mono (f : Nat → EInt) :
    ∀ (ms : List Nat) (v₁ v₂ : EInt) (b₁ b₂ : Option Nat), v₁ ≤ v₂ →
      (bfMin f ms v₁ b₁).value ≤ (bfMin f ms v₂ b₂).value := by
  intro ms
  induction ms with
  | nil => intro v₁ v₂ b₁ b₂ h; exact h
  | cons m0 ms ih =>
    intro v₁ v₂ b₁ b₂ h
    simp only [bfMin, EInt.ite_blt_min]
    exact ih _ _ _ _ (min_le_min h (le_refl (f m0)))

/-- Dual of `goMax_value_fin`. -/
theorem goMin_value_fin (f : Nat → EInt → EInt → EInt)
    (hfin : ∀ m a b, ∃ n, f m a b = EInt.fin n) :
    ∀ (ms : List Nat) (v : EInt) (best : Option Nat) (alpha beta : EInt),
      v ≠ EInt.negInf → (ms ≠ [] ∨ ∃ k, v = EInt.fin k) →
      ∃ n, (goMin f ms v best alpha beta).value = EInt.fin n := by
  intro ms
  induction ms with
  | nil =>
    intro v best alpha beta _ hor
    rcases hor with hne | ⟨k, rfl⟩
    · exact absurd rfl hne
    · exact ⟨k, rfl⟩
  | cons m0 ms ih =>
    intro v best alpha beta hv _
    obtain ⟨n0, hn0⟩ := hfin m0 alpha beta
    by_cases h : EInt.blt (f m0 alpha beta) v = true
    · simp only [goMin, h, if_true]
      split
      · exact ⟨n0, hn0⟩
      · exact ih (f m0 alpha beta) (some m0) _ _ (by rw [hn0]; intro hc; cases hc)
          (Or.inr ⟨n0, hn0⟩)
    · have hb : EInt.blt (f m0 alpha beta) v = false := Bool.eq_false_iff.mpr h
      have hvfin : ∃ k, v = EInt.fin k := by
        cases v with
        | posInf =>
          have : (EInt.fin n0 : EInt) < EInt.posInf := EInt.fin_lt_posInf n0
          rw [EInt.lt_def'] at this
          rw [hn0] at h
          exact absurd this h
        | fin k => exact ⟨k, rfl⟩
        | negInf => exact absurd rfl hv
      simp only [goMin, hb, Bool.false_eq_true, if_false]
      obtain ⟨k, rfl⟩ := hvfin
      split
      · exact ⟨k, rfl⟩
      · exact ih (EInt.fin k) best _ _ (by intro hc; cases hc) (Or.inr ⟨k, rfl⟩)

/-- Fail-soft alpha-beta bound for the maximizing loop.  If every child
evaluation `fAB m a c` relates to its true (unpruned) value `fBF m` by the
window bounds, then the loop's result `R` relates to the unpruned loop's
result `T` the same way: `R < beta` forces `T ≤ R`, and `alpha < R` forces
`R ≤ T`.  In particular the two agree whenever `alpha < R < beta`. -/
theorem goMax_bound (fAB : Nat → EInt → EInt → EInt) (fBF : Nat → EInt)
    (hb : ∀ m a c, a < c →
      ((fAB m a c < c → fBF m ≤ fAB m a c) ∧ (a < fAB m a c → fAB m a c ≤ fBF m))) :
    ∀ (ms : List Nat) (v : EInt) (best : Option Nat) (alpha beta : EInt),
      v ≤ alpha → alpha < beta →
      (((goMax fAB ms v best alpha beta).value < beta →
          (bfMax fBF ms v best).value ≤ (goMax fAB ms v best alpha beta).value) ∧
       (alpha < (goMax fAB ms v best alpha beta).value →
          (goMax fAB ms v best alpha beta).value ≤ (bfMax fBF ms v best).value)) := by
  intro ms
  induction ms with
  | nil =>
    intro v best alpha beta hva hab
    exact ⟨fun _ => le_refl v, fun _ => le_refl v⟩
  | cons m0 ms ih =>
    intro v best alpha beta hva hab
    have hbm := hb m0 alpha beta hab
    by_cases hup : EInt.blt v (fAB m0 alpha beta) = true
    · -- strict improvement on the pruned side
      have hvg : v < fAB m0 alpha beta := EInt.blt_eq_true_iff.mp hup
      simp only [goMax, hup, if_true]
      by_cases hpr : EInt.ble beta (EInt.maxE alpha (fAB m0 alpha beta)) = true
      · -- beta cutoff fires
        rw [if_pos hpr]
        have hba : beta ≤ max alpha (fAB m0 alpha beta) := by
          rw [← EInt.maxE_eq_max]; exact EInt.ble_eq_true_iff.mp hpr
        have hbg : beta ≤ fAB m0 alpha beta := by
          rcases le_max_iff.mp hba with h | h
          · exact absurd h (not_le.mpr hab)
          · exact h
        constructor
        · intro hRb
          exact absurd hRb (not_lt.mpr hbg)
        · intro _
          have hag : alpha < fAB m0 alpha beta := lt_of_lt_of_le hab hbg
          exact le_trans (hbm.2 hag)
            (bfMax_mem_le fBF (m0 :: ms) v best m0 (List.mem_cons_self m0 ms))
      · -- no cutoff: continue the loop
        rw [if_neg hpr]
        have hab' : EInt.maxE alpha (fAB m0 alpha beta) < beta := by
          have : EInt.ble beta (EInt.maxE alpha (fAB m0 alpha beta)) = false :=
            Bool.eq_false_iff.mpr hpr
          exact EInt.ble_eq_false_iff.mp this
        have hva' : fAB m0 alpha beta ≤ EInt.maxE alpha (fAB m0 alpha beta) := by
          rw [EInt.maxE_eq_max]; exact le_max_right _ _
        have IH := ih (fAB m0 alpha beta) (some m0)
          (EInt.maxE alpha (fAB m0 alpha beta)) beta hva' hab'
        by_cases hug : alpha < fAB m0 alpha beta
        · -- the child value rose above alpha: it is exact
          have hmax : EInt.maxE alpha (fAB m0 alpha beta) = fAB m0 alpha beta := by
            rw [EInt.maxE_eq_max]; exact max_eq_right (le_of_lt hug)
          have hgb : fAB m0 alpha beta < beta := by rw [hmax] at hab'; exact hab'
          have ht : fBF m0 = fAB m0 alpha beta :=
            le_antisymm (hbm.1 hgb) (hbm.2 hug)
          have hbf : EInt.blt v (fBF m0) = true := by
            rw [ht]; exact hup
          simp only [bfMax, hbf, if_true]
          rw [ht]
          rw [hmax] at IH ⊢
          constructor
          · intro hRb
            exact IH.1 hRb
          · intro haR
            by_cases hgr : fAB m0 alpha beta <
                (goMax fAB ms (fAB m0 alpha beta) (some m0) (fAB m0 alpha beta) beta).value
            · exact IH.2 hgr
            · have h1 : (goMax fAB ms (fAB m0 alpha beta) (some m0)
                  (fAB m0 alpha beta) beta).value ≤ fAB m0 alpha beta :=
                not_lt.mp hgr
              have h2 := goMax_le_value fAB ms (fAB m0 alpha beta) (some m0)
                (fAB m0 alpha beta) beta
              have hR : (goMax fAB ms (fAB m0 alpha beta) (some m0)
                  (fAB m0 alpha beta) beta).value = fAB m0 alpha beta :=
                le_antisymm h1 h2
              rw [hR]
              exact bfMax_le_value fBF ms (fAB m0 alpha beta) (some m0)
        · -- the child value failed low (g ≤ alpha): it is only an upper bound
          have hga : fAB m0 alpha beta ≤ alpha := not_lt.mp hug
          have hgb : fAB m0 alpha beta < beta := lt_of_le_of_lt hga hab
          have htg : fBF m0 ≤ fAB m0 alpha beta := hbm.1 hgb
          have hmax : EInt.maxE alpha (fAB m0 alpha beta) = alpha := by
            rw [EInt.maxE_eq_max]; exact max_eq_left hga
          rw [hmax] at IH hab' hva' ⊢
          simp only [bfMax, EInt.ite_blt_max]
          have hstate : max v (fBF m0) ≤ fAB m0 alpha beta :=
            max_le (le_of_lt hvg) htg
          constructor
          · intro hRb
            refine le_trans ?_ (IH.1 hRb)
            exact bfMax_value_mono fBF ms _ _ _ _ hstate
          · intro haR
            have hRT' := IH.2 haR
            rcases bfMax_value_cases fBF ms (fAB m0 alpha beta) (some m0) with
              hc | ⟨m, hm, hc⟩
            · rw [hc] at hRT'
              exact absurd (lt_of_lt_of_le haR hRT') (not_lt.mpr hga)
            · rw [hc] at hRT'
              refine le_trans hRT' ?_
              have := bfMax_mem_le fBF ms (max v (fBF m0))
                (if EInt.blt v (fBF m0) = true then some m0 else best) m hm
              exact this
    · -- no improvement on the pruned side: the state is unchanged
      have hgv : fAB m0 alpha beta ≤ v := EInt.blt_eq_false_iff.mp
        (Bool.eq_false_iff.mpr hup)
      have hbup : EInt.blt v (fAB m0 alpha beta) = false := Bool.eq_false_iff.mpr hup
      simp only [goMax, hbup, Bool.false_eq_true, if_false]
      have hmax : EInt.maxE alpha v = alpha := by
        rw [EInt.maxE_eq_max]; exact max_eq_left hva
      rw [hmax]
      have hpr : EInt.ble beta alpha = false := EInt.ble_eq_false_iff.mpr hab
      simp only [hpr, Bool.false_eq_true, if_false]
      have htv : fBF m0 ≤ v :=
        le_trans (hbm.1 (lt_of_le_of_lt (le_trans hgv hva) hab)) hgv
      have hbf : EInt.blt v (fBF m0) = false := EInt.blt_eq_false_iff.mpr htv
      simp only [bfMax, hbf, Bool.false_eq_true, if_false]
      exact ih v best alpha beta hva hab

/-- Fail-soft alpha-beta bound for the minimizing loop; dual of
`goMax_bound`. -/
theorem goMin_bound (fAB : Nat → EInt → EInt → EInt) (fBF : Nat → EInt)
    (hb : ∀ m a c, a < c →
      ((fAB m a c < c → fBF m ≤ fAB m a c) ∧ (a < fAB m a c → fAB m a c ≤ fBF m))) :
    ∀ (ms : List Nat) (v : EInt) (best : Option Nat) (alpha beta : EInt),
      beta ≤ v → alpha < beta →
      (((goMin fAB ms v best alpha beta).value < beta →
          (bfMin fBF ms v best).value ≤ (goMin fAB ms v best alpha beta).value) ∧
       (alpha < (goMin fAB ms v best alpha beta).value →
          (goMin fAB ms v best alpha beta).value ≤ (bfMin fBF ms v best).value)) := by
  intro ms
  induction ms with
  | nil =>
    intro v best alpha beta hbv hab
    exact ⟨fun _ => le_refl v, fun _ => le_refl v⟩
  | cons m0 ms ih =>
    intro v best alpha beta hbv hab
    have hbm := hb m0 alpha beta hab
    by_cases hup : EInt.blt (fAB m0 alpha beta) v = true
    · -- strict improvement on the pruned side
      have hgv : fAB m0 alpha beta < v := EInt.blt_eq_true_iff.mp hup
      simp only [goMin, hup, if_true]
      by_cases hpr : EInt.ble (EInt.minE beta (fAB m0 alpha beta)) alpha = true
      · -- alpha cutoff fires
        rw [if_pos hpr]
        have hba : min beta (fAB m0 alpha beta) ≤ alpha := by
          rw [← EInt.minE_eq_min]; exact EInt.ble_eq_true_iff.mp hpr
        have hga : fAB m0 alpha beta ≤ alpha := by
          rcases min_le_iff.mp hba with h | h
          · exact absurd h (not_le.mpr hab)
          · exact h
        constructor
        · intro _
          have hgb : fAB m0 alpha beta < beta := lt_of_le_of_lt hga hab
          exact le_trans
            (bfMin_le_mem fBF (m0 :: ms) v best m0 (List.mem_cons_self m0 ms))
            (hbm.1 hgb)
        · intro haR
          exact absurd haR (not_lt.mpr hga)
      · -- no cutoff: continue the loop
        rw [if_neg hpr]
        have hab' : alpha < EInt.minE beta (fAB m0 alpha beta) := by
          have : EInt.ble (EInt.minE beta (fAB m0 alpha beta)) alpha = false :=
            Bool.eq_false_iff.mpr hpr
          exact EInt.ble_eq_false_iff.mp this
        have hvb' : EInt.minE beta (fAB m0 alpha beta) ≤ fAB m0 alpha beta := by
          rw [EInt.minE_eq_min]; exact min_le_right _ _
        have IH := ih (fAB m0 alpha beta) (some m0) alpha
          (EInt.minE beta (fAB m0 alpha beta)) hvb' hab'
        by_cases hug : fAB m0 alpha beta < beta
        · -- the child value fell below beta: it is exact
          have hmin : EInt.minE beta (fAB m0 alpha beta) = fAB m0 alpha beta := by
            rw [EInt.minE_eq_min]; exact min_eq_right (le_of_lt hug)
          have hag : alpha < fAB m0 alpha beta := by rw [hmin] at hab'; exact hab'
          have ht : fBF m0 = fAB m0 alpha beta :=
            le_antisymm (hbm.1 hug) (hbm.2 hag)
          have hbf : EInt.blt (fBF m0) v = true := by
            rw [ht]; exact hup
          simp only [bfMin, hbf, if_true]
          rw [ht]
          rw [hmin] at IH ⊢
          constructor
          · intro hRb
            by_cases hgr : (goMin fAB ms (fAB m0 alpha beta) (some m0) alpha
                (fAB m0 alpha beta)).value < fAB m0 alpha beta
            · exact IH.1 hgr
            · have h1 : fAB m0 alpha beta ≤ (goMin fAB ms (fAB m0 alpha beta)
                  (some m0) alpha (fAB m0 alpha beta)).value := not_lt.mp hgr
              have h2 := goMin_value_le fAB ms (fAB m0 alpha beta) (some m0)
                alpha (fAB m0 alpha beta)
              have hR : (goMin fAB ms (fAB m0 alpha beta) (some m0) alpha
                  (fAB m0 alpha beta)).value = fAB m0 alpha beta :=
                le_antisymm h2 h1
              rw [hR]
              exact bfMin_value_le fBF ms (fAB m0 alpha beta) (some m0)
          · intro haR
            exact IH.2 haR
        · -- the child value failed high (beta ≤ g): it is only a lower bound
          have hbg : beta ≤ fAB m0 alpha beta := not_lt.mp hug
          have hag : alpha < fAB m0 alpha beta := lt_of_lt_of_le hab hbg
          have hgt : fAB m0 alpha beta ≤ fBF m0 := hbm.2 hag
          have hmin : EInt.minE beta (fAB m0 alpha beta) = beta := by
            rw [EInt.minE_eq_min]; exact min_eq_left hbg
          rw [hmin] at IH hab' hvb' ⊢
          simp only [bfMin, EInt.ite_blt_min]
          have hstate : fAB m0 alpha beta ≤ min v (fBF m0) :=
            le_min (le_of_lt hgv) hgt
          constructor
          · intro hRb
            have hT'R := IH.1 hRb
            rcases bfMin_value_cases fBF ms (fAB m0 alpha beta) (some m0) with
              hc | ⟨m, hm, hc⟩
            · rw [hc] at hT'R
              exact absurd (lt_of_le_of_lt hT'R hRb) (not_lt.mpr hbg)
            · rw [hc] at hT'R
              refine le_trans ?_ hT'R
              exact bfMin_le_mem fBF ms (min v (fBF m0))
                (if EInt.blt (fBF m0) v = true then some m0 else best) m hm
          · intro haR
            refine le_trans (IH.2 haR) ?_
            exact bfMin_value_mono fBF ms _ _ _ _ hstate
    · -- no improvement on the pruned side: the state is unchanged
      have hvg : v ≤ fAB m0 alpha beta := EInt.blt_eq_false_iff.mp
        (Bool.eq_false_iff.mpr hup)
      have hbup : EInt.blt (fAB m0 alpha beta) v = false := Bool.eq_false_iff.mpr hup
      simp only [goMin, hbup, Bool.false_eq_true, if_false]
      have hmin : EInt.minE beta v = beta := by
        rw [EInt.minE_eq_min]; exact min_eq_left hbv
      rw [hmin]
      have hpr : EInt.ble beta alpha = false := EInt.ble_eq_false_iff.mpr hab
      simp only [hpr, Bool.false_eq_true, if_false]
      have hvt : v ≤ fBF m0 :=
        le_trans hvg (hbm.2 (lt_of_lt_of_le hab (le_trans hbv hvg)))
      have hbf : EInt.blt (fBF m0) v = false := EInt.blt_eq_false_iff.mpr hvt
      simp only [bfMin, hbf, Bool.false_eq_true, if_false]
      exact ih v best alpha beta hbv hab

/-- At the root window the maximizing loop is *identical* to the unpruned
loop (value and move): with `beta = +Infinity` no cutoff can fire, and with
`alpha` equal to the running best value every child evaluation that matters
is exact. -/
theorem goMax_root_eq (fAB : Nat → EInt → EInt → EInt) (fBF : Nat → EInt)
    (hfin : ∀ m a c, ∃ n, fAB m a c = EInt.fin n)
    (hb : ∀ m a c, a < c →
      ((fAB m a c < c → fBF m ≤ fAB m a c) ∧ (a < fAB m a c → fAB m a c ≤ fBF m))) :
    ∀ (ms : List Nat) (v : EInt) (best : Option Nat), v ≠ EInt.posInf →
      goMax fAB ms v best v EInt.posInf = bfMax fBF ms v best := by
  intro ms
  induction ms with
  | nil => intro v best _; rfl
  | cons m0 ms ih =>
    intro v best hv
    obtain ⟨n0, hn0⟩ := hfin m0 v EInt.posInf
    have hvp : v < EInt.posInf := EInt.lt_posInf_of_ne hv
    have hbm := hb m0 v EInt.posInf hvp
    have hgp : fAB m0 v EInt.posInf < EInt.posInf := by
      rw [hn0]; exact EInt.fin_lt_posInf n0
    have htg : fBF m0 ≤ fAB m0 v EInt.posInf := hbm.1 hgp
    have hgnp : fAB m0 v EInt.posInf ≠ EInt.posInf := by
      rw [hn0]; intro hc; cases hc
    by_cases hup : EInt.blt v (fAB m0 v EInt.posInf) = true
    · have hvg : v < fAB m0 v EInt.posInf := EInt.blt_eq_true_iff.mp hup
      have ht : fBF m0 = fAB m0 v EInt.posInf := le_antisymm htg (hbm.2 hvg)
      have hbf : EInt.blt v (fBF m0) = true := by rw [ht]; exact hup
      have hmax : EInt.maxE v (fAB m0 v EInt.posInf) = fAB m0 v EInt.posInf := by
        rw [EInt.maxE_eq_max]; exact max_eq_right (le_of_lt hvg)
      have hpr : EInt.ble EInt.posInf (fAB m0 v EInt.posInf) = false := by
        rw [Bool.eq_false_iff]
        intro hc
        exact hgnp (EInt.posInf_le_iff.mp hc)
      simp only [goMax, hup, if_true, hmax, hpr, Bool.false_eq_true, if_false]
      simp only [bfMax, hbf, if_true]
      rw [ht]
      exact ih (fAB m0 v EInt.posInf) (some m0) hgnp
    · have hgv : fAB m0 v EInt.posInf ≤ v := EInt.blt_eq_false_iff.mp
        (Bool.eq_false_iff.mpr hup)
      have htv : fBF m0 ≤ v := le_trans htg hgv
      have hbf : EInt.blt v (fBF m0) = false := EInt.blt_eq_false_iff.mpr htv
      have hbup : EInt.blt v (fAB m0 v EInt.posInf) = false := Bool.eq_false_iff.mpr hup
      have hmax : EInt.maxE v v = v := by
        rw [EInt.maxE_eq_max]; exact max_self v
      have hpr : EInt.ble EInt.posInf v = false := by
        rw [Bool.eq_false_iff]
        intro hc
        exact hv (EInt.posInf_le_iff.mp hc)
      simp only [goMax, hbup, Bool.false_eq_true, if_false, hmax, hpr]
      simp only [bfMax, hbf, Bool.false_eq_true, if_false]
      exact ih v best hv

/-- Dual of `goMax_root_eq` for the minimizing loop. -/
theorem goMin_root_eq (fAB : Nat → EInt → EInt → EInt) (fBF : Nat → EInt)
    (hfin : ∀ m a c, ∃ n, fAB m a c = EInt.fin n)
    (hb : ∀ m a c, a < c →
      ((fAB m a c < c → fBF m ≤ fAB m a c) ∧ (a < fAB m a c → fAB m a c ≤ fBF m))) :
    ∀ (ms : List Nat) (v : EInt) (best : Option Nat), v ≠ EInt.negInf →
      goMin fAB ms v best EInt.negInf v = bfMin fBF ms v best := by
  intro ms
  induction ms with
  | nil => intro v best _; rfl
  | cons m0 ms ih =>
    intro v best hv
    obtain ⟨n0, hn0⟩ := hfin m0 EInt.negInf v
    have hvp : EInt.negInf < v := EInt.negInf_lt_of_ne hv
    have hbm := hb m0 EInt.negInf v hvp
    have hgp : EInt.negInf < fAB m0 EInt.negInf v := by
      rw [hn0]; exact EInt.negInf_lt_fin n0
    have htg : fAB m0 EInt.negInf v ≤ fBF m0 := hbm.2 hgp
    have hgnp : fAB m0 EInt.negInf v ≠ EInt.negInf := by
      rw [hn0]; intro hc; cases hc
    by_cases hup : EInt.blt (fAB m0 EInt.negInf v) v = true
    · have hvg : fAB m0 EInt.negInf v < v := EInt.blt_eq_true_iff.mp hup
      have ht : fBF m0 = fAB m0 EInt.negInf v := le_antisymm (hbm.1 hvg) htg
      have hbf : EInt.blt (fBF m0) v = true := by rw [ht]; exact hup
      have hmin : EInt.minE v (fAB m0 EInt.negInf v) = fAB m0 EInt.negInf v := by
        rw [EInt.minE_eq_min]; exact min_eq_right (le_of_lt hvg)
      have hpr : EInt.ble (fAB m0 EInt.negInf v) EInt.negInf = false := by
        rw [Bool.eq_false_iff]
        intro hc
        exact hgnp (EInt.le_negInf_iff.mp hc)
      simp only [goMin, hup, if_true, hmin, hpr, Bool.false_eq_true, if_false]
      simp only [bfMin, hbf, if_true]
      rw [ht]
      exact ih (fAB m0 EInt.negInf v) (some m0) hgnp
    · have hgv : v ≤ fAB m0 EInt.negInf v := EInt.blt_eq_false_iff.mp
        (Bool.eq_false_iff.mpr hup)
      have htv : v ≤ fBF m0 := le_trans hgv htg
      have hbf : EInt.blt (fBF m0) v = false := EInt.blt_eq_false_iff.mpr htv
      have hbup : EInt.blt (fAB m0 EInt.negInf v) v = false := Bool.eq_false_iff.mpr hup
      have hmin : EInt.minE v v = v := by
        rw [EInt.minE_eq_min]; exact min_self v
      have hpr : EInt.ble v EInt.negInf = false := by
        rw [Bool.eq_false_iff]
        intro hc
        exact hv (EInt.le_negInf_iff.mp hc)
      simp only [goMin, hbup, Bool.false_eq_true, if_false, hmin, hpr]
      simp only [bfMin, hbf, Bool.false_eq_true, if_false]
      exact ih v best hv

/-! ## Lifting the loop lemmas to the fuelled searches -/

theorem bfMax_value_fin (f : Nat → EInt) (hfin : ∀ m, ∃ n, f m = EInt.fin n) :
    ∀ (ms : List Nat) (v : EInt) (best : Option Nat),
      v ≠ EInt.posInf → (ms ≠ [] ∨ ∃ k, v = EInt.fin k) →
      ∃ n, (bfMax f ms v best).value = EInt.fin n := by
  intro ms
  induction ms with
  | nil =>
    intro v best _ hor
    rcases hor with hne | ⟨k, rfl⟩
    · exact absurd rfl hne
    · exact ⟨k, rfl⟩
  | cons m0 ms ih =>
    intro v best hv _
    obtain ⟨n0, hn0⟩ := hfin m0
    by_cases h : EInt.blt v (f m0) = true
    · simp only [bfMax, h, if_true]
      exact ih (f m0) (some m0) (by rw [hn0]; intro hc; cases hc) (Or.inr ⟨n0, hn0⟩)
    · have hb : EInt.blt v (f m0) = false := Bool.eq_false_iff.mpr h
      have hvfin : ∃ k, v = EInt.fin k := by
        cases v with
        | negInf =>
          have : (EInt.negInf : EInt) < EInt.fin n0 := EInt.negInf_lt_fin n0
          rw [EInt.lt_def'] at this
          rw [hn0] at h
          exact absurd this h
        | fin k => exact ⟨k, rfl⟩
        | posInf => exact absurd rfl hv
      simp only [bfMax, hb, Bool.false_eq_true, if_false]
      obtain ⟨k, rfl⟩ := hvfin
      exact ih (EInt.fin k) best (by intro hc; cases hc) (Or.inr ⟨k, rfl⟩)

theorem bfMin_value_fin (f : Nat → EInt) (hfin : ∀ m, ∃ n, f m = EInt.fin n) :
    ∀ (ms : List Nat) (v : EInt) (best : Option Nat),
      v ≠ EInt.negInf → (ms ≠ [] ∨ ∃ k, v = EInt.fin k) →
      ∃ n, (bfMin f ms v best).value = EInt.fin n := by
  intro ms
  induction ms with
  | nil =>
    intro v best _ hor
    rcases hor with hne | ⟨k, rfl⟩
    · exact absurd rfl hne
    · exact ⟨k, rfl⟩
  | cons m0 ms ih =>
    intro v best hv _
    obtain ⟨n0, hn0⟩ := hfin m0
    by_cases h : EInt.blt (f m0) v = true
    · simp only [bfMin, h, if_true]
      exact ih (f m0) (some m0) (by rw [hn0]; intro hc; cases hc) (Or.inr ⟨n0, hn0⟩)
    · have hb : EInt.blt (f m0) v = false := Bool.eq_false_iff.mpr h
      have hvfin : ∃ k, v = EInt.fin k := by
        cases v with
        | posInf =>
          have : (EInt.fin n0 : EInt) < EInt.posInf := EInt.fin_lt_posInf n0
          rw [EInt.lt_def'] at this
          rw [hn0] at h
          exact absurd this h
        | fin k => exact ⟨k, rfl⟩
        | negInf => exact absurd rfl hv
      simp only [bfMin, hb, Bool.false_eq_true, if_false]
      obtain ⟨k, rfl⟩ := hvfin
      exact ih (EInt.fin k) best (by intro hc; cases hc) (Or.inr ⟨k, rfl⟩)

/-- The pruned search always returns a finite value. -/
theorem searchABF_value_fin :
    ∀ (fuel : Nat) (p : Player) (b : Board) (alpha beta : EInt),
      ∃ n, (searchABF fuel p b alpha beta).value = EInt.fin n := by
  intro fuel
  induction fuel with
  | zero => intro p b alpha beta; exact ⟨utility b, rfl⟩
  | succ fuel ih =>
    intro p b alpha beta
    by_cases hterm : terminal b = true
    · cases p
      · simp only [searchABF, hterm, if_true]; exact ⟨utility b, rfl⟩
      · simp only [searchABF, hterm, if_true]; exact ⟨utility b, rfl⟩
    · have ht : terminal b = false := Bool.eq_false_iff.mpr hterm
      cases p
      · simp only [searchABF, ht, Bool.false_eq_true, if_false]
        exact goMax_value_fin _
          (fun m a c => ih Player.O (applyMoveU b m Player.X) a c)
          (availableMoves b) EInt.negInf none alpha beta
          (by intro hc; cases hc) (Or.inl (avail_ne_nil_of_not_terminal ht))
      · simp only [searchABF, ht, Bool.false_eq_true, if_false]
        exact goMin_value_fin _
          (fun m a c => ih Player.X (applyMoveU b m Player.O) a c)
          (availableMoves b) EInt.posInf none alpha beta
          (by intro hc; cases hc) (Or.inl (avail_ne_nil_of_not_terminal ht))

/-- The unpruned search always returns a finite value. -/
theorem searchNoABF_value_fin :
    ∀ (fuel : Nat) (p : Player) (b : Board),
      ∃ n, (searchNoABF fuel p b).value = EInt.fin n := by
  intro fuel
  induction fuel with
  | zero => intro p b; exact ⟨utility b, rfl⟩
  | succ fuel ih =>
    intro p b
    by_cases hterm : terminal b = true
    · cases p
      · simp only [searchNoABF, hterm, if_true]; exact ⟨utility b, rfl⟩
      · simp only [searchNoABF, hterm, if_true]; exact ⟨utility b, rfl⟩
    · have ht : terminal b = false := Bool.eq_false_iff.mpr hterm
      cases p
      · simp only [searchNoABF, ht, Bool.false_eq_true, if_false]
        exact bfMax_value_fin _
          (fun m => ih Player.O (applyMoveU b m Player.X))
          (availableMoves b) EInt.negInf none
          (by intro hc; cases hc) (Or.inl (avail_ne_nil_of_not_terminal ht))
      · simp only [searchNoABF, ht, Bool.false_eq_true, if_false]
        exact bfMin_value_fin _
          (fun m => ih Player.X (applyMoveU b m Player.O))
          (availableMoves b) EInt.posInf none
          (by intro hc; cases hc) (Or.inl (avail_ne_nil_of_not_terminal ht))

/-- Fail-soft alpha-beta bound for the full search: for any window
`alpha < beta`, the pruned value is exact whenever it lands strictly inside
the window, an upper bound on the true value when it fails low, and a lower
bound when it fails high. -/
theorem searchABF_bound :
    ∀ (fuel : Nat) (p : Player) (b : Board) (alpha beta : EInt),
      alpha < beta →
      (((searchABF fuel p b alpha beta).value < beta →
          (searchNoABF fuel p b).value ≤ (searchABF fuel p b alpha beta).value) ∧
       (alpha < (searchABF fuel p b alpha beta).value →
          (searchABF fuel p b alpha beta).value ≤ (searchNoABF fuel p b).value)) := by
  intro fuel
  induction fuel with
  | zero =>
    intro p b alpha beta _
    exact ⟨fun _ => le_refl _, fun _ => le_refl _⟩
  | succ fuel ih =>
    intro p b alpha beta hab
    by_cases hterm : terminal b = true
    · cases p
      · simp only [searchABF, searchNoABF, hterm, if_true]
        exact ⟨fun _ => le_refl _, fun _ => le_refl _⟩
      · simp only [searchABF, searchNoABF, hterm, if_true]
        exact ⟨fun _ => le_refl _, fun _ => le_refl _⟩
    · have ht : terminal b = false := Bool.eq_false_iff.mpr hterm
      cases p
      · simp only [searchABF, searchNoABF, ht, Bool.false_eq_true, if_false]
        exact goMax_bound _ _
          (fun m a c hac => ih Player.O (applyMoveU b m Player.X) a c hac)
          (availableMoves b) EInt.negInf none alpha beta
          (EInt.negInf_le alpha) hab
      · simp only [searchABF, searchNoABF, ht, Bool.false_eq_true, if_false]
        exact goMin_bound _ _
          (fun m a c hac => ih Player.X (applyMoveU b m Player.O) a c hac)
          (availableMoves b) EInt.posInf none alpha beta
          (EInt.le_posInf beta) hab

/-- With the full window the pruned search returns *exactly* the result of
the unpruned search: same value and same move. -/
theorem searchABF_root_eq :
    ∀ (fuel : Nat) (p : Player) (b : Board),
      searchABF fuel p b EInt.negInf EInt.posInf = searchNoABF fuel p b := by
  intro fuel
  induction fuel with
  | zero => intro p b; cases p <;> rfl
  | succ fuel ih =>
    intro p b
    by_cases hterm : terminal b = true
    · cases p
      · simp only [searchABF, searchNoABF, hterm, if_true]
      · simp only [searchABF, searchNoABF, hterm, if_true]
    · have ht : terminal b = false := Bool.eq_false_iff.mpr hterm
      cases p
      · simp only [searchABF, searchNoABF, ht, Bool.false_eq_true, if_false]
        have hroot := goMax_root_eq
          (fun m a c => (searchABF fuel Player.O (applyMoveU b m Player.X) a c).value)
          (fun m => (searchNoABF fuel Player.O (applyMoveU b m Player.X)).value)
          (fun m a c => searchABF_value_fin fuel Player.O (applyMoveU b m Player.X) a c)
          (fun m a c hac => searchABF_bound fuel Player.O (applyMoveU b m Player.X) a c hac)
          (availableMoves b) EInt.negInf none (by intro hc; cases hc)
        rw [hroot]
      · simp only [searchABF, searchNoABF, ht, Bool.false_eq_true, if_false]
        have hroot := goMin_root_eq
          (fun m a c => (searchABF fuel Player.X (applyMoveU b m Player.O) a c).value)
          (fun m => (searchNoABF fuel Player.X (applyMoveU b m Player.O)).value)
          (fun m a c => searchABF_value_fin fuel Player.X (applyMoveU b m Player.O) a c)
          (fun m a c hac => searchABF_bound fuel Player.X (applyMoveU b m Player.O) a c hac)
          (availableMoves b) EInt.posInf none (by intro hc; cases hc)
        rw [hroot]

/-! ## Minimax values of positions and moves -/

theorem moveValue_fuel {b : Board} {m k : Nat} (p : Player)
    (hm : m ∈ availableMoves b) (hk : countEmpty b = k + 1) :
    (searchNoABF k (Player.other p) (applyMoveU b m p)).value = moveValue p b m := by
  have hc := countEmpty_applyMoveU p (mem_availableMoves.mp hm)
  have : countEmpty (applyMoveU b m p) = k := by omega
  rw [moveValue, this]

theorem moveValue_fuel_X {b : Board} {m k : Nat}
    (hm : m ∈ availableMoves b) (hk : countEmpty b = k + 1) :
    (searchNoABF k Player.O (applyMoveU b m Player.X)).value = moveValue Player.X b m :=
  moveValue_fuel Player.X hm hk

theorem moveValue_fuel_O {b : Board} {m k : Nat}
    (hm : m ∈ availableMoves b) (hk : countEmpty b = k + 1) :
    (searchNoABF k Player.X (applyMoveU b m Player.O)).value = moveValue Player.O b m :=
  moveValue_fuel Player.O hm hk

theorem countEmpty_succ_of_not_terminal {b : Board} (ht : terminal b = false) :
    ∃ k, countEmpty b = k + 1 := by
  have := countEmpty_pos_of_not_terminal ht
  exact ⟨countEmpty b - 1, by omega⟩

/-- The maximizing node: the unpruned search at a non-terminal board with
`X` to move returns the first move attaining the maximum child value. -/
theorem searchNoABF_node_X {b : Board} (ht : terminal b = false) :
    ∃ m ∈ availableMoves b,
      searchNoABF (countEmpty b) Player.X b = ⟨moveValue Player.X b m, some m⟩ ∧
      (∀ m' ∈ availableMoves b, moveValue Player.X b m' ≤ moveValue Player.X b m) ∧
      (∀ m' ∈ availableMoves b, m' < m →
        moveValue Player.X b m' < moveValue Player.X b m) := by
  obtain ⟨k, hk⟩ := countEmpty_succ_of_not_terminal ht
  have hnode : searchNoABF (countEmpty b) Player.X b =
      bfMax (fun m => (searchNoABF k Player.O (applyMoveU b m Player.X)).value)
        (availableMoves b) EInt.negInf none := by
    rw [hk]
    simp only [searchNoABF, ht, Bool.false_eq_true, if_false]
  rcases bfMax_spec (fun m => (searchNoABF k Player.O (applyMoveU b m Player.X)).value)
      (availableMoves b) EInt.negInf none (availableMoves_pairwise b) with
    ⟨_, hle⟩ | ⟨m, hm, heq, _, hle, hfirst⟩
  · exfalso
    obtain ⟨m0, hm0⟩ := List.exists_mem_of_ne_nil (availableMoves b)
      (avail_ne_nil_of_not_terminal ht)
    obtain ⟨n, hn⟩ := searchNoABF_value_fin k Player.O (applyMoveU b m0 Player.X)
    have := hle m0 hm0
    rw [hn, EInt.le_negInf_iff] at this
    cases this
  · refine ⟨m, hm, ?_, ?_, ?_⟩
    · rw [hnode, heq, moveValue_fuel_X hm hk]
    · intro m' hm'
      rw [← moveValue_fuel_X hm' hk, ← moveValue_fuel_X hm hk]
      exact hle m' hm'
    · intro m' hm' hlt
      rw [← moveValue_fuel_X hm' hk, ← moveValue_fuel_X hm hk]
      exact hfirst m' hm' hlt

/-- The minimizing node, dual of `searchNoABF_node_X`. -/
theorem searchNoABF_node_O {b : Board} (ht : terminal b = false) :
    ∃ m ∈ availableMoves b,
      searchNoABF (countEmpty b) Player.O b = ⟨moveValue Player.O b m, some m⟩ ∧
      (∀ m' ∈ availableMoves b, moveValue Player.O b m ≤ moveValue Player.O b m') ∧
      (∀ m' ∈ availableMoves b, m' < m →
        moveValue Player.O b m < moveValue Player.O b m') := by
  obtain ⟨k, hk⟩ := countEmpty_succ_of_not_terminal ht
  have hnode : searchNoABF (countEmpty b) Player.O b =
      bfMin (fun m => (searchNoABF k Player.X (applyMoveU b m Player.O)).value)
        (availableMoves b) EInt.posInf none := by
    rw [hk]
    simp only [searchNoABF, ht, Bool.false_eq_true, if_false]
  rcases bfMin_spec (fun m => (searchNoABF k Player.X (applyMoveU b m Player.O)).value)
      (availableMoves b) EInt.posInf none (availableMoves_pairwise b) with
    ⟨_, hle⟩ | ⟨m, hm, heq, _, hle, hfirst⟩
  · exfalso
    obtain ⟨m0, hm0⟩ := List.exists_mem_of_ne_nil (availableMoves b)
      (avail_ne_nil_of_not_terminal ht)
    obtain ⟨n, hn⟩ := searchNoABF_value_fin k Player.X (applyMoveU b m0 Player.O)
    have := hle m0 hm0
    rw [hn, EInt.posInf_le_iff] at this
    cases this
  · refine ⟨m, hm, ?_, ?_, ?_⟩
    · rw [hnode, heq, moveValue_fuel_O hm hk]
    · intro m' hm'
      rw [← moveValue_fuel_O hm' hk, ← moveValue_fuel_O hm hk]
      exact hle m' hm'
    · intro m' hm' hlt
      rw [← moveValue_fuel_O hm' hk, ← moveValue_fuel_O hm hk]
      exact hfirst m' hm' hlt

/-! ## Claim theorems: the board model -/

/-- Claim C5: `applyMove` errors exactly when the target square is occupied;
on an empty square it returns a new board whose target square holds the
player's mark. -/
theorem applyMove_error_iff_occupied (b : Board) (m : Nat) (p : Player)
    (hlen : b.length = 9) (hm : m < 9) :
    (applyMove b m p = none ↔ b.get? m ≠ some none) ∧
    (b.get? m = some none →
      applyMove b m p = some (applyMoveU b m p) ∧
      (applyMoveU b m p).get? m = some (some p)) := by
  refine ⟨⟨?_, ?_⟩, ?_⟩
  · intro h hc
    rw [applyMove, hc] at h
    cases h
  · intro hne
    rw [applyMove]
    cases hq : b.get? m with
    | none => rfl
    | some sq =>
      cases sq with
      | none => exact absurd hq hne
      | some q => rfl
  · intro he
    refine ⟨applyMove_eq_some p he, ?_⟩
    rw [applyMoveU, List.get?_set_eq_of_lt]
    omega

/-- Witness for C5 at the empty board, move 4. -/
theorem applyMove_error_iff_occupied_witness :
    initialBoard.length = 9 ∧ 4 < 9 ∧
    ((applyMove initialBoard 4 Player.X = none ↔
        initialBoard.get? 4 ≠ some none) ∧
      (initialBoard.get? 4 = some none →
        applyMove initialBoard 4 Player.X =
            some (applyMoveU initialBoard 4 Player.X) ∧
          (applyMoveU initialBoard 4 Player.X).get? 4 = some (some Player.X))) :=
  ⟨by decide, by decide,
    applyMove_error_iff_occupied initialBoard 4 Player.X (by decide) (by decide)⟩

/-- Claim C9: `applyMove` has no effect beyond the target square — the new
board has the same length and agrees with the old board on every other
index.  (Immutability of the input board itself is inherent in the
embedding: boards are values, and `applyMove` builds its result from
`List.set`, which shares no mutable state with the input.) -/
theorem applyMove_frame (b : Board) (m : Nat) (p : Player) (b' : Board)
    (h : applyMove b m p = some b') :
    b'.length = b.length ∧ ∀ i, i ≠ m → b'.get? i = b.get? i := by
  have hb' : b' = b.set m (some p) := by
    rw [applyMove] at h
    cases hq : b.get? m with
    | none => rw [hq] at h; cases h
    | some sq =>
      cases sq with
      | none =>
        rw [hq] at h
        exact (Option.some_inj.mp h).symm
      | some q => rw [hq] at h; cases h
  subst hb'
  refine ⟨List.length_set b m (some p), ?_⟩
  intro i hi
  exact List.get?_set_ne (some p) b (fun hc => hi hc.symm)

/-- Witness for C9 at the empty board, move 4. -/
theorem applyMove_frame_witness :
    applyMove initialBoard 4 Player.X = some (applyMoveU initialBoard 4 Player.X) ∧
    ((applyMoveU initialBoard 4 Player.X).length = initialBoard.length ∧
      ∀ i, i ≠ 4 →
        (applyMoveU initialBoard 4 Player.X).get? i = initialBoard.get? i) :=
  ⟨by decide,
    applyMove_frame initialBoard 4 Player.X (applyMoveU initialBoard 4 Player.X)
      (by decide)⟩

/-- Claim C10: `applyMove` rejects out-of-range indices with the same
invalid-move error (the out-of-range lookup is not an empty square), and a
successful `applyMove` always preserves the board length. -/
theorem applyMove_out_of_range (b : Board) (m : Nat) (p : Player)
    (hlen : b.length = 9) :
    (8 < m → applyMove b m p = none) ∧
    (∀ b', applyMove b m p = some b' → b'.length = 9) := by
  constructor
  · intro hm
    rw [applyMove, List.get?_len_le (by omega)]
  · intro b' h
    have hb' : b' = b.set m (some p) := by
      rw [applyMove] at h
      cases hq : b.get? m with
      | none => rw [hq] at h; cases h
      | some sq =>
        cases sq with
        | none =>
          rw [hq] at h
          exact (Option.some_inj.mp h).symm
        | some q => rw [hq] at h; cases h
    subst hb'
    rw [List.length_set]
    exact hlen

/-- Witness for C10 at the empty board, move 9. -/
theorem applyMove_out_of_range_witness :
    initialBoard.length = 9 ∧
    ((8 < 9 + 3 → applyMove initialBoard (9 + 3) Player.O = none) ∧
      (∀ b', applyMove initialBoard (9 + 3) Player.O = some b' → b'.length = 9)) :=
  ⟨by decide, applyMove_out_of_range initialBoard (9 + 3) Player.O (by decide)⟩

/-- Claim C7: `terminal` is true exactly when there is a winner or no empty
square remains (no available moves). -/
theorem isTerminal_iff_winner_or_full (b : Board) :
    terminal b = true ↔ (calculateWinner b ≠ none ∨ availableMoves b = []) := by
  rw [terminal, Bool.or_eq_true]
  apply or_congr
  · exact Option.isSome_iff_ne_none
  · constructor
    · intro hall
      cases hav : availableMoves b with
      | nil => rfl
      | cons m ms =>
        exfalso
        have hm : m ∈ availableMoves b := by rw [hav]; exact List.mem_cons_self m ms
        have hget := mem_availableMoves.mp hm
        have hmem : (none : Square) ∈ b := List.get?_mem hget
        have := List.all_eq_true.mp hall none hmem
        cases this
    · intro hnil
      rw [List.all_eq_true]
      intro sq hsq
      cases sq with
      | some q => rfl
      | none =>
        exfalso
        obtain ⟨n, hn⟩ := List.mem_iff_get?.mp hsq
        have : n ∈ availableMoves b := mem_availableMoves.mpr hn
        rw [hnil] at this
        exact List.not_mem_nil n this

theorem winnerLoop_eq_findSome (b : Board) :
    ∀ lines : List (Nat × Nat × Nat),
      winnerLoop b lines = lines.findSome? (fullLineMark b) := by
  intro lines
  induction lines with
  | nil => rfl
  | cons ln rest ih =>
    obtain ⟨a, i, j⟩ := ln
    rw [List.findSome?_cons]
    cases hA : b.get? a with
    | none =>
      simp only [winnerLoop, hA, fullLineMark]
      exact ih
    | some sq =>
      cases sq with
      | none =>
        simp only [winnerLoop, hA, fullLineMark]
        exact ih
      | some p =>
        simp only [winnerLoop, hA]
        by_cases hcond : b.get? i = some (some p) ∧ b.get? j = some (some p)
        · rw [if_pos hcond]
          have hfl : fullLineMark b (a, i, j) = some p := by
            simp only [fullLineMark, hA, hcond.1, hcond.2, and_self,
              eq_self_iff_true, if_true]
          rw [hfl]
        · rw [if_neg hcond]
          have hfl : fullLineMark b (a, i, j) = none := by
            simp only [fullLineMark, hA]
            cases hB : b.get? i with
            | none => rfl
            | some sqB =>
              cases sqB with
              | none => rfl
              | some q =>
                cases hC : b.get? j with
                | none => rfl
                | some sqC =>
                  cases sqC with
                  | none => rfl
                  | some r =>
                    show (if p = q ∧ p = r then some p else none) = none
                    refine if_neg ?_
                    rintro ⟨rfl, rfl⟩
                    exact hcond ⟨hB, hC⟩
          rw [hfl]
          exact ih

/-- Claim C8: `calculateWinner` returns the mark of the first fully-occupied
single-mark line in the fixed enumeration order of `winningLines` (3 rows,
then 3 columns, then 2 diagonals), or `none` — for every board, including
malformed ones on which two wins are simultaneously present. -/
theorem winner_first_matching_line (b : Board) :
    calculateWinner b = winningLines.findSome? (fullLineMark b) :=
  winnerLoop_eq_findSome b winningLines

/-! ## Claim theorems: the search -/

/-- Claim C2: alpha-beta pruning is a pure optimization — called with the
full window, both evaluators return exactly the result (value *and* move) of
brute-force minimax with the same ascending move order and the same
strict-improvement tie-break, on every board. -/
theorem pruning_is_pure_optimization (b : Board) :
    maxValueAB b EInt.negInf EInt.posInf = bruteForceMax b ∧
    minValueAB b EInt.negInf EInt.posInf = bruteForceMin b :=
  ⟨searchABF_root_eq (countEmpty b) Player.X b,
   searchABF_root_eq (countEmpty b) Player.O b⟩

/-- Claim C3: on a non-terminal board, `minimaxAB` returns a move, and that
move is one of the available (empty-square) indices. -/
theorem bestMove_mem_availableMoves (b : Board) (p : Player)
    (ht : terminal b = false) :
    ∃ m, minimaxAB b p = some m ∧ m ∈ availableMoves b := by
  cases p
  · obtain ⟨m, hm, heq, -, -⟩ := searchNoABF_node_X ht
    refine ⟨m, ?_, hm⟩
    show (searchABF (countEmpty b) Player.X b EInt.negInf EInt.posInf).move = some m
    rw [searchABF_root_eq, heq]
  · obtain ⟨m, hm, heq, -, -⟩ := searchNoABF_node_O ht
    refine ⟨m, ?_, hm⟩
    show (searchABF (countEmpty b) Player.O b EInt.negInf EInt.posInf).move = some m
    rw [searchABF_root_eq, heq]

/-- Witness for C3 at a non-terminal board with one empty square. -/
theorem bestMove_mem_availableMoves_witness :
    terminal lastMoveBoard = false ∧
    ∃ m, minimaxAB lastMoveBoard Player.X = some m ∧
      m ∈ availableMoves lastMoveBoard :=
  ⟨by decide, bestMove_mem_availableMoves lastMoveBoard Player.X (by decide)⟩

/-- Claim C4, counterexample: on a terminal board `minimaxAB` does not
error — it returns normally, with the null move.  The embedding of the
search is a total function (the source has no `throw` in `minimaxAB`,
`maxValueAB` or `minValueAB`): at a terminal board the evaluators return
`{ value: utility(board), move: null }` and `minimaxAB` hands the caller
`null`, which the UI checks for (`if (bestMove !== null)`). -/
theorem bestMove_terminal_counterexample :
    terminal drawBoard = true ∧
    minimaxAB drawBoard Player.X = none ∧
    minimaxAB drawBoard Player.O = none := by
  refine ⟨by decide, ?_, ?_⟩ <;> decide

/-- Claim C4, amended: on every terminal board, `minimaxAB` returns the
null move (`none`) normally instead of raising an error. -/
theorem bestMove_terminal_returns_null (b : Board) (p : Player)
    (ht : terminal b = true) : minimaxAB b p = none := by
  cases p
  · show (searchABF (countEmpty b) Player.X b EInt.negInf EInt.posInf).move = none
    cases hk : countEmpty b with
    | zero => rfl
    | succ k => simp only [searchABF, ht, if_true]
  · show (searchABF (countEmpty b) Player.O b EInt.negInf EInt.posInf).move = none
    cases hk : countEmpty b with
    | zero => rfl
    | succ k => simp only [searchABF, ht, if_true]

/-- Witness for the amended C4 at a full drawn board. -/
theorem bestMove_terminal_returns_null_witness :
    terminal drawBoard = true ∧ minimaxAB drawBoard Player.O = none :=
  ⟨by decide, bestMove_terminal_returns_null drawBoard Player.O (by decide)⟩

/-- Claim C6: `minimaxAB` is deterministic (it is a pure function of the
board and player, so repeated calls agree definitionally), and the move it
returns is the lowest-index optimal move: its move value equals the minimax
value of the board, and every available move of smaller index has a
different (strictly worse) value. -/
theorem bestMove_lowest_index_optimal (b : Board) (p : Player)
    (ht : terminal b = false) :
    ∃ m, minimaxAB b p = some m ∧ m ∈ availableMoves b ∧
      moveValue p b m = nodeValue p b ∧
      ∀ m' ∈ availableMoves b, m' < m → moveValue p b m' ≠ nodeValue p b := by
  cases p
  · obtain ⟨m, hm, heq, hle, hfirst⟩ := searchNoABF_node_X ht
    refine ⟨m, ?_, hm, ?_, ?_⟩
    · show (searchABF (countEmpty b) Player.X b EInt.negInf EInt.posInf).move = some m
      rw [searchABF_root_eq, heq]
    · rw [nodeValue, heq]
    · intro m' hm' hlt hceq
      rw [nodeValue, heq] at hceq
      exact absurd hceq (ne_of_lt (hfirst m' hm' hlt))
  · obtain ⟨m, hm, heq, hle, hfirst⟩ := searchNoABF_node_O ht
    refine ⟨m, ?_, hm, ?_, ?_⟩
    · show (searchABF (countEmpty b) Player.O b EInt.negInf EInt.posInf).move = some m
      rw [searchABF_root_eq, heq]
    · rw [nodeValue, heq]
    · intro m' hm' hlt hceq
      rw [nodeValue, heq] at hceq
      exact absurd hceq (ne_of_gt (hfirst m' hm' hlt))

/-! ## Mark counts, turn alternation and the never-loses invariant -/

theorem filter_length_set (g : Square → Bool) (hgn : g none = false) :
    ∀ (b : Board) (m : Nat) (q : Player), b.get? m = some none →
      ((b.set m (some q)).filter g).length =
        (b.filter g).length + (if g (some q) then 1 else 0) := by
  intro b
  induction b with
  | nil => intro m q h; simp at h
  | cons sq rest ih =>
    intro m q h
    cases m with
    | zero =>
      have hsq : sq = none := by
        simp only [List.get?] at h
        exact Option.some_inj.mp h
      subst hsq
      show ((some q :: rest).filter g).length =
        ((none :: rest).filter g).length + (if g (some q) then 1 else 0)
      rw [List.filter_cons, List.filter_cons, hgn]
      simp only [Bool.false_eq_true, if_false]
      by_cases hq : g (some q) = true
      · simp only [hq, if_true, List.length_cons]
      · simp only [hq, Bool.false_eq_true, if_false]
        omega
    | succ m' =>
      simp only [List.get?] at h
      show ((sq :: rest.set m' (some q)).filter g).length =
        ((sq :: rest).filter g).length + (if g (some q) then 1 else 0)
      rw [List.filter_cons, List.filter_cons]
      by_cases hs : g sq = true
      · simp only [hs, if_true, List.length_cons]
        rw [ih m' q h]
        omega
      · simp only [hs, Bool.false_eq_true, if_false]
        exact ih m' q h

theorem xCount_set_X {b : Board} {m : Nat} (h : b.get? m = some none) :
    xCount (applyMoveU b m Player.X) = xCount b + 1 := by
  have h' := filter_length_set (fun sq => decide (sq = some Player.X))
    (by decide) b m Player.X h
  simpa [xCount, applyMoveU] using h'

theorem oCount_set_X {b : Board} {m : Nat} (h : b.get? m = some none) :
    oCount (applyMoveU b m Player.X) = oCount b := by
  have h' := filter_length_set (fun sq => decide (sq = some Player.O))
    (by decide) b m Player.X h
  simpa [oCount, applyMoveU] using h'

theorem xCount_set_O {b : Board} {m : Nat} (h : b.get? m = some none) :
    xCount (applyMoveU b m Player.O) = xCount b := by
  have h' := filter_length_set (fun sq => decide (sq = some Player.X))
    (by decide) b m Player.O h
  simpa [xCount, applyMoveU] using h'

theorem oCount_set_O {b : Board} {m : Nat} (h : b.get? m = some none) :
    oCount (applyMoveU b m Player.O) = oCount b + 1 := by
  have h' := filter_length_set (fun sq => decide (sq = some Player.O))
    (by decide) b m Player.O h
  simpa [oCount, applyMoveU] using h'

theorem getCurrentPlayer_eq_X_iff {b : Board} :
    getCurrentPlayer b = Player.X ↔ xCount b = oCount b := by
  unfold getCurrentPlayer
  by_cases h : xCount b = oCount b
  · simp [h]
  · simp [h]

theorem getCurrentPlayer_flip_X {b : Board} {m : Nat} (h : b.get? m = some none)
    (hX : getCurrentPlayer b = Player.X) :
    getCurrentPlayer (applyMoveU b m Player.X) = Player.O := by
  have hx := getCurrentPlayer_eq_X_iff.mp hX
  unfold getCurrentPlayer
  rw [xCount_set_X h, oCount_set_X h, if_neg (by omega)]

theorem getCurrentPlayer_flip_O {b : Board} {m : Nat} (h : b.get? m = some none)
    (hbal : Balanced b) (hO : getCurrentPlayer b = Player.O) :
    getCurrentPlayer (applyMoveU b m Player.O) = Player.X := by
  have hx : xCount b ≠ oCount b := by
    intro hc
    rw [getCurrentPlayer_eq_X_iff.mpr hc] at hO
    cases hO
  have hxo : xCount b = oCount b + 1 := by
    rcases hbal with h1 | h1
    · exact absurd h1 hx
    · exact h1
  unfold getCurrentPlayer
  rw [xCount_set_O h, oCount_set_O h, if_pos (by omega)]

theorem balanced_applyMoveU {b : Board} {m : Nat} (h : b.get? m = some none)
    (hbal : Balanced b) : Balanced (applyMoveU b m (getCurrentPlayer b)) := by
  unfold Balanced at hbal ⊢
  by_cases hx : xCount b = oCount b
  · have hcur : getCurrentPlayer b = Player.X := getCurrentPlayer_eq_X_iff.mpr hx
    rw [hcur, xCount_set_X h, oCount_set_X h]
    omega
  · have hcur : getCurrentPlayer b = Player.O := by
      unfold getCurrentPlayer
      rw [if_neg hx]
    rw [hcur, xCount_set_O h, oCount_set_O h]
    omega

theorem nodeValue_terminal {b : Board} (p : Player) (ht : terminal b = true) :
    nodeValue p b = EInt.fin (utility b) := by
  rw [nodeValue]
  cases hk : countEmpty b with
  | zero => cases p <;> rfl
  | succ k => cases p <;> simp only [searchNoABF, ht, if_true]

theorem moveValue_X_child (b : Board) (m : Nat) :
    moveValue Player.X b m = nodeValue Player.O (applyMoveU b m Player.X) := rfl

theorem moveValue_O_child (b : Board) (m : Nat) :
    moveValue Player.O b m = nodeValue Player.X (applyMoveU b m Player.O) := rfl

/-- The move chosen by the engine as `X` is available and value-preserving. -/
theorem minimaxAB_X_chosen {b : Board} (ht : terminal b = false) {m : Nat}
    (hm : minimaxAB b Player.X = some m) :
    m ∈ availableMoves b ∧ moveValue Player.X b m = nodeValue Player.X b := by
  obtain ⟨m₀, hm₀, heq, -, -⟩ := searchNoABF_node_X ht
  have hmm : minimaxAB b Player.X = some m₀ := by
    show (searchABF (countEmpty b) Player.X b EInt.negInf EInt.posInf).move = some m₀
    rw [searchABF_root_eq, heq]
  rw [hmm] at hm
  obtain rfl : m₀ = m := Option.some_inj.mp hm
  exact ⟨hm₀, by rw [nodeValue, heq]⟩

/-- The move chosen by the engine as `O` is available and value-preserving. -/
theorem minimaxAB_O_chosen {b : Board} (ht : terminal b = false) {m : Nat}
    (hm : minimaxAB b Player.O = some m) :
    m ∈ availableMoves b ∧ moveValue Player.O b m = nodeValue Player.O b := by
  obtain ⟨m₀, hm₀, heq, -, -⟩ := searchNoABF_node_O ht
  have hmm : minimaxAB b Player.O = some m₀ := by
    show (searchABF (countEmpty b) Player.O b EInt.negInf EInt.posInf).move = some m₀
    rw [searchABF_root_eq, heq]
  rw [hmm] at hm
  obtain rfl : m₀ = m := Option.some_inj.mp hm
  exact ⟨hm₀, by rw [nodeValue, heq]⟩

/-- At a minimizing node every move's value is at least the node value. -/
theorem nodeValue_le_moveValue_O {b : Board} (ht : terminal b = false) {m : Nat}
    (hm : m ∈ availableMoves b) :
    nodeValue Player.O b ≤ moveValue Player.O b m := by
  obtain ⟨m₀, hm₀, heq, hle, -⟩ := searchNoABF_node_O ht
  rw [nodeValue, heq]
  exact hle m hm

/-- At a maximizing node every move's value is at most the node value. -/
theorem moveValue_le_nodeValue_X {b : Board} (ht : terminal b = false) {m : Nat}
    (hm : m ∈ availableMoves b) :
    moveValue Player.X b m ≤ nodeValue Player.X b := by
  obtain ⟨m₀, hm₀, heq, hle, -⟩ := searchNoABF_node_X ht
  rw [nodeValue, heq]
  exact hle m hm

theorem playSeq_balanced :
    ∀ (ms : List Nat) (b₀ b : Board), Balanced b₀ →
      playSeq b₀ ms = some b → Balanced b := by
  intro ms
  induction ms with
  | nil =>
    intro b₀ b h hp
    rw [playSeq] at hp
    exact (Option.some_inj.mp hp) ▸ h
  | cons m ms ih =>
    intro b₀ b h hp
    rw [playSeq] at hp
    by_cases ht : terminal b₀ = true
    · rw [if_pos ht] at hp
      cases hp
    · rw [if_neg ht] at hp
      by_cases hemp : b₀.get? m = some none
      · rw [if_pos hemp] at hp
        exact ih _ _ (balanced_applyMoveU hemp h) hp
      · rw [if_neg hemp] at hp
        cases hp

theorem reachable_balanced {b : Board} (h : Reachable b) : Balanced b := by
  obtain ⟨ms, hms⟩ := h
  refine playSeq_balanced ms initialBoard b ?_ hms
  exact Or.inl (by decide)

/-- Along any engine game, balance and favorability are preserved: the
engine's chosen move keeps the minimax value unchanged, and no opponent
move can make the value cross zero against the engine. -/
theorem enginePlays_invariant {s : Player} {b f : Board}
    (hp : EnginePlays s b f) :
    Balanced b → engineFavorable s b → Balanced f ∧ engineFavorable s f := by
  induction hp with
  | refl b => exact fun h1 h2 => ⟨h1, h2⟩
  | @engineMove b' c' m hterm hcur hmove hrest ih =>
    intro hbal hfav
    have hmem : m ∈ availableMoves b' ∧ moveValue s b' m = nodeValue s b' := by
      cases s
      · exact minimaxAB_X_chosen hterm hmove
      · exact minimaxAB_O_chosen hterm hmove
    have hemp : b'.get? m = some none := mem_availableMoves.mp hmem.1
    have hbal' : Balanced (applyMoveU b' m s) := by
      have hb := balanced_applyMoveU hemp hbal
      rw [hcur] at hb
      exact hb
    have hfav' : engineFavorable s (applyMoveU b' m s) := by
      cases s with
      | X =>
        have hflip := getCurrentPlayer_flip_X hemp hcur
        show EInt.fin 0 ≤
          nodeValue (getCurrentPlayer (applyMoveU b' m Player.X))
            (applyMoveU b' m Player.X)
        rw [hflip, ← moveValue_X_child, hmem.2]
        have hfav2 : EInt.fin 0 ≤ nodeValue (getCurrentPlayer b') b' := hfav
        rw [hcur] at hfav2
        exact hfav2
      | O =>
        have hflip := getCurrentPlayer_flip_O hemp hbal hcur
        show nodeValue (getCurrentPlayer (applyMoveU b' m Player.O))
            (applyMoveU b' m Player.O) ≤ EInt.fin 0
        rw [hflip, ← moveValue_O_child, hmem.2]
        have hfav2 : nodeValue (getCurrentPlayer b') b' ≤ EInt.fin 0 := hfav
        rw [hcur] at hfav2
        exact hfav2
    exact ih hbal' hfav'
  | @opponentMove b' c' m hterm hne hm hrest ih =>
    intro hbal hfav
    have hemp : b'.get? m = some none := mem_availableMoves.mp hm
    have hbal' : Balanced (applyMoveU b' m (getCurrentPlayer b')) :=
      balanced_applyMoveU hemp hbal
    have hfav' : engineFavorable s (applyMoveU b' m (getCurrentPlayer b')) := by
      cases s with
      | X =>
        have hcurO : getCurrentPlayer b' = Player.O := by
          cases hgc : getCurrentPlayer b'
          · exact absurd hgc hne
          · rfl
        have hflip := getCurrentPlayer_flip_O hemp hbal hcurO
        show EInt.fin 0 ≤
          nodeValue (getCurrentPlayer (applyMoveU b' m (getCurrentPlayer b')))
            (applyMoveU b' m (getCurrentPlayer b'))
        rw [hcurO, hflip, ← moveValue_O_child]
        refine le_trans ?_ (nodeValue_le_moveValue_O hterm hm)
        have hfav2 : EInt.fin 0 ≤ nodeValue (getCurrentPlayer b') b' := hfav
        rw [hcurO] at hfav2
        exact hfav2
      | O =>
        have hcurX : getCurrentPlayer b' = Player.X := by
          cases hgc : getCurrentPlayer b'
          · rfl
          · exact absurd hgc hne
        have hflip := getCurrentPlayer_flip_X hemp hcurX
        show nodeValue (getCurrentPlayer (applyMoveU b' m (getCurrentPlayer b')))
            (applyMoveU b' m (getCurrentPlayer b')) ≤ EInt.fin 0
        rw [hcurX, hflip, ← moveValue_X_child]
        refine le_trans (moveValue_le_nodeValue_X hterm hm) ?_
        have hfav2 : nodeValue (getCurrentPlayer b') b' ≤ EInt.fin 0 := hfav
        rw [hcurX] at hfav2
        exact hfav2
    exact ih hbal' hfav'

/-- Witness for C6 at the winning-in-one board (the optimal move is 2). -/
theorem bestMove_lowest_index_optimal_witness :
    terminal winInOneBoard = false ∧
    ∃ m, minimaxAB winInOneBoard Player.X = some m ∧
      m ∈ availableMoves winInOneBoard ∧
      moveValue Player.X winInOneBoard m = nodeValue Player.X winInOneBoard ∧
      ∀ m' ∈ availableMoves winInOneBoard, m' < m →
        moveValue Player.X winInOneBoard m' ≠ nodeValue Player.X winInOneBoard :=
  ⟨by decide, bestMove_lowest_index_optimal winInOneBoard Player.X (by decide)⟩

/-- Claim C1, counterexample: the engine *can* lose from a legal (reachable,
alternating-play) starting board.  `forkBoard` is reached by the alternating
game X5, O0, X7, O2, X8, O6 and has `X` (the engine) to move, but `O`
already holds the triple fork 0/2/6, threatening 1, 3 and 4 at once.  The
engine plays `minimaxAB forkBoard X = some 1`; `O` replies 3 and wins: the
finished game has utility `-1 < 0`, although the engine played mover-1. -/
theorem engine_loses_from_legal_board_counterexample :
    Reachable forkBoard ∧ getCurrentPlayer forkBoard = Player.X ∧
    EnginePlays Player.X forkBoard forkBoardLost ∧
    terminal forkBoardLost = true ∧ utility forkBoardLost < 0 := by
  refine ⟨⟨[5, 0, 7, 2, 8, 6], by decide⟩, by decide, ?_, by decide, by decide⟩
  refine EnginePlays.engineMove (by decide) (by decide)
    (show minimaxAB forkBoard Player.X = some 1 by decide) ?_
  refine EnginePlays.opponentMove (m := 3) (by decide) (by decide) (by decide) ?_
  have hO : getCurrentPlayer (applyMoveU forkBoard 1 Player.X) = Player.O := by
    decide
  rw [hO]
  exact EnginePlays.refl forkBoardLost

/-- Claim C1, amended: the engine never loses *from any legal starting board
that is not already lost for its side* — whenever the starting board is
reachable by alternating play and its minimax value is favorable (or
neutral) for the engine's side, every finished game in which the engine
plays that side via `minimaxAB` has utility `≥ 0` when the engine is
mover-1 (X) and `≤ 0` when the engine is mover-2 (O).  (In particular this
covers every game started from the empty board.) -/
theorem engine_never_loses_from_favorable (s : Player) (b f : Board)
    (hreach : Reachable b) (hfav : engineFavorable s b)
    (hp : EnginePlays s b f) (hterm : terminal f = true) :
    (s = Player.X → 0 ≤ utility f) ∧ (s = Player.O → utility f ≤ 0) := by
  have hbal := reachable_balanced hreach
  have hinv := enginePlays_invariant hp hbal hfav
  constructor
  · rintro rfl
    have hf : EInt.fin 0 ≤ nodeValue (getCurrentPlayer f) f := hinv.2
    rw [nodeValue_terminal _ hterm] at hf
    exact EInt.fin_le_fin_iff.mp hf
  · rintro rfl
    have hf : nodeValue (getCurrentPlayer f) f ≤ EInt.fin 0 := hinv.2
    rw [nodeValue_terminal _ hterm] at hf
    exact EInt.fin_le_fin_iff.mp hf

/-- Witness for the amended C1: from the one-empty-square board (a drawn
position, value 0, reachable by X0 O1 X2 O4 X3 O5 X7 O6), the engine as `X`
plays the last move and the finished game has utility `0 ≥ 0`. -/
theorem engine_never_loses_from_favorable_witness :
    Reachable lastMoveBoard ∧ engineFavorable Player.X lastMoveBoard ∧
    terminal (applyMoveU lastMoveBoard 8 Player.X) = true ∧
    ((Player.X = Player.X → 0 ≤ utility (applyMoveU lastMoveBoard 8 Player.X)) ∧
     (Player.X = Player.O → utility (applyMoveU lastMoveBoard 8 Player.X) ≤ 0)) := by
  have hreach : Reachable lastMoveBoard := ⟨[0, 1, 2, 4, 3, 5, 7, 6], by decide⟩
  have hfav : engineFavorable Player.X lastMoveBoard :=
    show EInt.fin 0 ≤ nodeValue (getCurrentPlayer lastMoveBoard) lastMoveBoard
      by decide
  have hplay : EnginePlays Player.X lastMoveBoard
      (applyMoveU lastMoveBoard 8 Player.X) :=
    EnginePlays.engineMove (by decide) (by decide)
      (show minimaxAB lastMoveBoard Player.X = some 8 by decide)
      (EnginePlays.refl _)
  exact ⟨hreach, hfav, by decide,
    engine_never_loses_from_favorable Player.X lastMoveBoard
      (applyMoveU lastMoveBoard 8 Player.X) hreach hfav hplay (by decide)⟩

end TicTacToe
